import Mathlib

/-!
Verification of the AES block cipher core of the cryptopals repository
(`src/cipher/aes.rs`, `src/padding.rs`, `src/error.rs`).

The Rust code is shallowly embedded: `u8` values become `Nat` with explicit
`% 256` truncation where the machine arithmetic wraps, `u64` counters become
`Nat` with the wrap absorbed into the big-endian byte extraction
(`% 256` per byte), byte slices become `List Nat`, and operations that can
panic (index out of bounds, integer underflow/overflow in debug builds)
return `Option`, with `none` modelling the panic.  Indexing through
`List.getD` mirrors the Rust indexing; out-of-range indices never occur on
the executed paths (the panicking paths are modelled by explicit guards).
-/

namespace Cryptopals

set_option maxRecDepth 100000

/-- xtime operation of `aes.rs`: multiplication by x in GF(2^8);
`(x << 1) ^ (if x & 0x80 != 0 { 0x1b } else { 0x00 })` on `u8`,
so the left shift truncates modulo 256. -/
def xtime (x : Nat) : Nat :=
  ((2 * x) % 256) ^^^ (if x &&& 0x80 ≠ 0 then 0x1b else 0x00)

/-- Loop body of `dot` in `aes.rs`.  The Rust loop runs `while mask != 0`
with a `u8` mask starting at 0x01 and doubling each iteration, hence it
performs exactly 8 iterations (the 0x80 → 0x00 wrap ends it); the fuel
argument counts those 8 iterations explicitly. -/
def dotLoop (y : Nat) : Nat → Nat → Nat → Nat → Nat
  | _x, product, _mask, 0 => product
  | x, product, mask, Nat.succ fuel =>
      dotLoop y (xtime x) (if y &&& mask ≠ 0 then product ^^^ x else product)
        ((2 * mask) % 256) fuel

/-- dot operation of `aes.rs`: GF(2^8) product of `x` and `y`
(repeated doubling of `x` over the set bits of `y`). -/
def dot (x y : Nat) : Nat := dotLoop y x 0 1 8

/-- SBOX table of `aes.rs` (16 rows of 16 bytes). -/
def SBOX : List (List Nat) :=
  [[0x63, 0x7c, 0x77, 0x7b, 0xf2, 0x6b, 0x6f, 0xc5,
    0x30, 0x01, 0x67, 0x2b, 0xfe, 0xd7, 0xab, 0x76],
   [0xca, 0x82, 0xc9, 0x7d, 0xfa, 0x59, 0x47, 0xf0,
    0xad, 0xd4, 0xa2, 0xaf, 0x9c, 0xa4, 0x72, 0xc0],
   [0xb7, 0xfd, 0x93, 0x26, 0x36, 0x3f, 0xf7, 0xcc,
    0x34, 0xa5, 0xe5, 0xf1, 0x71, 0xd8, 0x31, 0x15],
   [0x04, 0xc7, 0x23, 0xc3, 0x18, 0x96, 0x05, 0x9a,
    0x07, 0x12, 0x80, 0xe2, 0xeb, 0x27, 0xb2, 0x75],
   [0x09, 0x83, 0x2c, 0x1a, 0x1b, 0x6e, 0x5a, 0xa0,
    0x52, 0x3b, 0xd6, 0xb3, 0x29, 0xe3, 0x2f, 0x84],
   [0x53, 0xd1, 0x00, 0xed, 0x20, 0xfc, 0xb1, 0x5b,
    0x6a, 0xcb, 0xbe, 0x39, 0x4a, 0x4c, 0x58, 0xcf],
   [0xd0, 0xef, 0xaa, 0xfb, 0x43, 0x4d, 0x33, 0x85,
    0x45, 0xf9, 0x02, 0x7f, 0x50, 0x3c, 0x9f, 0xa8],
   [0x51, 0xa3, 0x40, 0x8f, 0x92, 0x9d, 0x38, 0xf5,
    0xbc, 0xb6, 0xda, 0x21, 0x10, 0xff, 0xf3, 0xd2],
   [0xcd, 0x0c, 0x13, 0xec, 0x5f, 0x97, 0x44, 0x17,
    0xc4, 0xa7, 0x7e, 0x3d, 0x64, 0x5d, 0x19, 0x73],
   [0x60, 0x81, 0x4f, 0xdc, 0x22, 0x2a, 0x90, 0x88,
    0x46, 0xee, 0xb8, 0x14, 0xde, 0x5e, 0x0b, 0xdb],
   [0xe0, 0x32, 0x3a, 0x0a, 0x49, 0x06, 0x24, 0x5c,
    0xc2, 0xd3, 0xac, 0x62, 0x91, 0x95, 0xe4, 0x79],
   [0xe7, 0xc8, 0x37, 0x6d, 0x8d, 0xd5, 0x4e, 0xa9,
    0x6c, 0x56, 0xf4, 0xea, 0x65, 0x7a, 0xae, 0x08],
   [0xba, 0x78, 0x25, 0x2e, 0x1c, 0xa6, 0xb4, 0xc6,
    0xe8, 0xdd, 0x74, 0x1f, 0x4b, 0xbd, 0x8b, 0x8a],
   [0x70, 0x3e, 0xb5, 0x66, 0x48, 0x03, 0xf6, 0x0e,
    0x61, 0x35, 0x57, 0xb9, 0x86, 0xc1, 0x1d, 0x9e],
   [0xe1, 0xf8, 0x98, 0x11, 0x69, 0xd9, 0x8e, 0x94,
    0x9b, 0x1e, 0x87, 0xe9, 0xce, 0x55, 0x28, 0xdf],
   [0x8c, 0xa1, 0x89, 0x0d, 0xbf, 0xe6, 0x42, 0x68,
    0x41, 0x99, 0x2d, 0x0f, 0xb0, 0x54, 0xbb, 0x16]]

/-- INV_SBOX table of `aes.rs` (16 rows of 16 bytes). -/
def INV_SBOX : List (List Nat) :=
  [[0x52, 0x09, 0x6a, 0xd5, 0x30, 0x36, 0xa5, 0x38,
    0xbf, 0x40, 0xa3, 0x9e, 0x81, 0xf3, 0xd7, 0xfb],
   [0x7c, 0xe3, 0x39, 0x82, 0x9b, 0x2f, 0xff, 0x87,
    0x34, 0x8e, 0x43, 0x44, 0xc4, 0xde, 0xe9, 0xcb],
   [0x54, 0x7b, 0x94, 0x32, 0xa6, 0xc2, 0x23, 0x3d,
    0xee, 0x4c, 0x95, 0x0b, 0x42, 0xfa, 0xc3, 0x4e],
   [0x08, 0x2e, 0xa1, 0x66, 0x28, 0xd9, 0x24, 0xb2,
    0x76, 0x5b, 0xa2, 0x49, 0x6d, 0x8b, 0xd1, 0x25],
   [0x72, 0xf8, 0xf6, 0x64, 0x86, 0x68, 0x98, 0x16,
    0xd4, 0xa4, 0x5c, 0xcc, 0x5d, 0x65, 0xb6, 0x92],
   [0x6c, 0x70, 0x48, 0x50, 0xfd, 0xed, 0xb9, 0xda,
    0x5e, 0x15, 0x46, 0x57, 0xa7, 0x8d, 0x9d, 0x84],
   [0x90, 0xd8, 0xab, 0x00, 0x8c, 0xbc, 0xd3, 0x0a,
    0xf7, 0xe4, 0x58, 0x05, 0xb8, 0xb3, 0x45, 0x06],
   [0xd0, 0x2c, 0x1e, 0x8f, 0xca, 0x3f, 0x0f, 0x02,
    0xc1, 0xaf, 0xbd, 0x03, 0x01, 0x13, 0x8a, 0x6b],
   [0x3a, 0x91, 0x11, 0x41, 0x4f, 0x67, 0xdc, 0xea,
    0x97, 0xf2, 0xcf, 0xce, 0xf0, 0xb4, 0xe6, 0x73],
   [0x96, 0xac, 0x74, 0x22, 0xe7, 0xad, 0x35, 0x85,
    0xe2, 0xf9, 0x37, 0xe8, 0x1c, 0x75, 0xdf, 0x6e],
   [0x47, 0xf1, 0x1a, 0x71, 0x1d, 0x29, 0xc5, 0x89,
    0x6f, 0xb7, 0x62, 0x0e, 0xaa, 0x18, 0xbe, 0x1b],
   [0xfc, 0x56, 0x3e, 0x4b, 0xc6, 0xd2, 0x79, 0x20,
    0x9a, 0xdb, 0xc0, 0xfe, 0x78, 0xcd, 0x5a, 0xf4],
   [0x1f, 0xdd, 0xa8, 0x33, 0x88, 0x07, 0xc7, 0x31,
    0xb1, 0x12, 0x10, 0x59, 0x27, 0x80, 0xec, 0x5f],
   [0x60, 0x51, 0x7f, 0xa9, 0x19, 0xb5, 0x4a, 0x0d,
    0x2d, 0xe5, 0x7a, 0x9f, 0x93, 0xc9, 0x9c, 0xef],
   [0xa0, 0xe0, 0x3b, 0x4d, 0xae, 0x2a, 0xf5, 0xb0,
    0xc8, 0xeb, 0xbb, 0x3c, 0x83, 0x53, 0x99, 0x61],
   [0x17, 0x2b, 0x04, 0x7e, 0xba, 0x77, 0xd6, 0x26,
    0xe1, 0x69, 0x14, 0x63, 0x55, 0x21, 0x0c, 0x7d]]

/-- Byte-level SBOX lookup, `SBOX[((b & 0xf0) >> 4)][b & 0x0f]`,
as inlined in `sub_word` and `sub_bytes`. -/
def sboxByte (b : Nat) : Nat :=
  (SBOX.getD ((b &&& 0xf0) >>> 4) []).getD (b &&& 0x0f) 0

/-- Byte-level INV_SBOX lookup as inlined in `inv_sub_bytes`. -/
def invSboxByte (b : Nat) : Nat :=
  (INV_SBOX.getD ((b &&& 0xf0) >>> 4) []).getD (b &&& 0x0f) 0

/-- rot_word operation of `aes.rs`: rotate a 4-byte word left by one byte. -/
def rot_word (w : List Nat) : List Nat :=
  [w.getD 1 0, w.getD 2 0, w.getD 3 0, w.getD 0 0]

/-- sub_word operation of `aes.rs`: SBOX substitution on each byte of a word. -/
def sub_word (w : List Nat) : List Nat :=
  [sboxByte (w.getD 0 0), sboxByte (w.getD 1 0),
   sboxByte (w.getD 2 0), sboxByte (w.getD 3 0)]

/-- Byte-wise XOR of two 4-byte words, the
`w[i][j] ^= w[i - keywords][j]` step of `compute_key_schedule`. -/
def xor_word (u v : List Nat) : List Nat :=
  [u.getD 0 0 ^^^ v.getD 0 0, u.getD 1 0 ^^^ v.getD 1 0,
   u.getD 2 0 ^^^ v.getD 2 0, u.getD 3 0 ^^^ v.getD 3 0]

/-- Initial words of the key schedule: `w[i / 4][i % 4] = key[i]`
for `i in 0..keylength`, i.e. word `j` is bytes `4j..4j+3` of the key. -/
def key_words (key : List Nat) : List (List Nat) :=
  (List.range (key.length / 4)).map fun j =>
    [key.getD (4 * j) 0, key.getD (4 * j + 1) 0,
     key.getD (4 * j + 2) 0, key.getD (4 * j + 3) 0]

/-- Main loop of `compute_key_schedule` in `aes.rs`
(`for i in keywords..4*(keywords+7)`), with the running `i`, the running
`u8` round constant `rcon` (note `rcon <<= 1` truncates modulo 256, and the
code resets `rcon` to 0x1b when `i % 36 == 0`), and the accumulated word
list; the fuel counts the remaining iterations. -/
def ksLoop (keywords : Nat) : Nat → Nat → Nat → List (List Nat) → List (List Nat)
  | 0, _i, _rcon, w => w
  | Nat.succ fuel, i, rcon, w =>
    let prev := w.getD (i - 1) []
    if i % keywords = 0 then
      let t := sub_word (rot_word prev)
      let rc := if i % 36 = 0 then 0x1b else rcon
      let t2 := [t.getD 0 0 ^^^ rc, t.getD 1 0, t.getD 2 0, t.getD 3 0]
      ksLoop keywords fuel (i + 1) ((2 * rc) % 256)
        (w ++ [xor_word t2 (w.getD (i - keywords) [])])
    else if 6 < keywords ∧ i % keywords = 4 then
      ksLoop keywords fuel (i + 1) rcon
        (w ++ [xor_word (sub_word prev) (w.getD (i - keywords) [])])
    else
      ksLoop keywords fuel (i + 1) rcon
        (w ++ [xor_word prev (w.getD (i - keywords) [])])

/-- compute_key_schedule of `aes.rs`: expand the raw key (16, 24 or 32
bytes) into `4*(keywords+7)` round-key words. -/
def compute_key_schedule (key : List Nat) : List (List Nat) :=
  let keywords := key.length / 4
  ksLoop keywords (4 * (keywords + 7) - keywords) keywords 0x01 (key_words key)

/-- AES state: the `[[u8; 4]; 4]` matrix of `aes.rs`, field `sRC` holding
`state[R][C]`. -/
structure AesState where
  s00 : Nat
  s01 : Nat
  s02 : Nat
  s03 : Nat
  s10 : Nat
  s11 : Nat
  s12 : Nat
  s13 : Nat
  s20 : Nat
  s21 : Nat
  s22 : Nat
  s23 : Nat
  s30 : Nat
  s31 : Nat
  s32 : Nat
  s33 : Nat

/-- State initialisation of `encrypt_block`/`decrypt_block`:
`state[r][c] = input[r + 4*c]`. -/
def loadState (input : List Nat) : AesState :=
  ⟨input.getD 0 0, input.getD 4 0, input.getD 8 0, input.getD 12 0,
   input.getD 1 0, input.getD 5 0, input.getD 9 0, input.getD 13 0,
   input.getD 2 0, input.getD 6 0, input.getD 10 0, input.getD 14 0,
   input.getD 3 0, input.getD 7 0, input.getD 11 0, input.getD 15 0⟩

/-- Output extraction of `encrypt_block`/`decrypt_block`:
`output[r + 4*c] = state[r][c]`. -/
def storeState (s : AesState) : List Nat :=
  [s.s00, s.s10, s.s20, s.s30, s.s01, s.s11, s.s21, s.s31,
   s.s02, s.s12, s.s22, s.s32, s.s03, s.s13, s.s23, s.s33]

/-- Byte `r` of word `c` in a round-key slice (`w[c][r]` in Rust). -/
def wByte (ws : List (List Nat)) (c r : Nat) : Nat :=
  (ws.getD c []).getD r 0

/-- add_round_key of `aes.rs`: `state[r][c] ^= w[c][r]`. -/
def add_round_key (s : AesState) (ws : List (List Nat)) : AesState :=
  ⟨s.s00 ^^^ wByte ws 0 0, s.s01 ^^^ wByte ws 1 0,
   s.s02 ^^^ wByte ws 2 0, s.s03 ^^^ wByte ws 3 0,
   s.s10 ^^^ wByte ws 0 1, s.s11 ^^^ wByte ws 1 1,
   s.s12 ^^^ wByte ws 2 1, s.s13 ^^^ wByte ws 3 1,
   s.s20 ^^^ wByte ws 0 2, s.s21 ^^^ wByte ws 1 2,
   s.s22 ^^^ wByte ws 2 2, s.s23 ^^^ wByte ws 3 2,
   s.s30 ^^^ wByte ws 0 3, s.s31 ^^^ wByte ws 1 3,
   s.s32 ^^^ wByte ws 2 3, s.s33 ^^^ wByte ws 3 3⟩

/-- sub_bytes of `aes.rs`: SBOX substitution on every state byte. -/
def sub_bytes (s : AesState) : AesState :=
  ⟨sboxByte s.s00, sboxByte s.s01, sboxByte s.s02, sboxByte s.s03,
   sboxByte s.s10, sboxByte s.s11, sboxByte s.s12, sboxByte s.s13,
   sboxByte s.s20, sboxByte s.s21, sboxByte s.s22, sboxByte s.s23,
   sboxByte s.s30, sboxByte s.s31, sboxByte s.s32, sboxByte s.s33⟩

/-- inv_sub_bytes of `aes.rs`. -/
def inv_sub_bytes (s : AesState) : AesState :=
  ⟨invSboxByte s.s00, invSboxByte s.s01, invSboxByte s.s02, invSboxByte s.s03,
   invSboxByte s.s10, invSboxByte s.s11, invSboxByte s.s12, invSboxByte s.s13,
   invSboxByte s.s20, invSboxByte s.s21, invSboxByte s.s22, invSboxByte s.s23,
   invSboxByte s.s30, invSboxByte s.s31, invSboxByte s.s32, invSboxByte s.s33⟩

/-- shift_rows of `aes.rs`: row 0 fixed, row 1 rotated left by 1,
row 2 swapped pairwise, row 3 rotated right by 1 in index order, which is
a left rotation by 3. -/
def shift_rows (s : AesState) : AesState :=
  { s with
    s10 := s.s11, s11 := s.s12, s12 := s.s13, s13 := s.s10,
    s20 := s.s22, s21 := s.s23, s22 := s.s20, s23 := s.s21,
    s30 := s.s33, s31 := s.s30, s32 := s.s31, s33 := s.s32 }

/-- inv_shift_rows of `aes.rs`. -/
def inv_shift_rows (s : AesState) : AesState :=
  { s with
    s10 := s.s13, s11 := s.s10, s12 := s.s11, s13 := s.s12,
    s20 := s.s22, s21 := s.s23, s22 := s.s20, s23 := s.s21,
    s30 := s.s31, s31 := s.s32, s32 := s.s33, s33 := s.s30 }

/-- mix_columns of `aes.rs`: per column, multiply by the circulant
matrix with first row (2, 3, 1, 1) over GF(2^8). -/
def mix_columns (s : AesState) : AesState :=
  ⟨dot 2 s.s00 ^^^ dot 3 s.s10 ^^^ s.s20 ^^^ s.s30,
   dot 2 s.s01 ^^^ dot 3 s.s11 ^^^ s.s21 ^^^ s.s31,
   dot 2 s.s02 ^^^ dot 3 s.s12 ^^^ s.s22 ^^^ s.s32,
   dot 2 s.s03 ^^^ dot 3 s.s13 ^^^ s.s23 ^^^ s.s33,
   s.s00 ^^^ dot 2 s.s10 ^^^ dot 3 s.s20 ^^^ s.s30,
   s.s01 ^^^ dot 2 s.s11 ^^^ dot 3 s.s21 ^^^ s.s31,
   s.s02 ^^^ dot 2 s.s12 ^^^ dot 3 s.s22 ^^^ s.s32,
   s.s03 ^^^ dot 2 s.s13 ^^^ dot 3 s.s23 ^^^ s.s33,
   s.s00 ^^^ s.s10 ^^^ dot 2 s.s20 ^^^ dot 3 s.s30,
   s.s01 ^^^ s.s11 ^^^ dot 2 s.s21 ^^^ dot 3 s.s31,
   s.s02 ^^^ s.s12 ^^^ dot 2 s.s22 ^^^ dot 3 s.s32,
   s.s03 ^^^ s.s13 ^^^ dot 2 s.s23 ^^^ dot 3 s.s33,
   dot 3 s.s00 ^^^ s.s10 ^^^ s.s20 ^^^ dot 2 s.s30,
   dot 3 s.s01 ^^^ s.s11 ^^^ s.s21 ^^^ dot 2 s.s31,
   dot 3 s.s02 ^^^ s.s12 ^^^ s.s22 ^^^ dot 2 s.s32,
   dot 3 s.s03 ^^^ s.s13 ^^^ s.s23 ^^^ dot 2 s.s33⟩

/-- inv_mix_columns of `aes.rs`: per column, multiply by the circulant
matrix with first row (0x0e, 0x0b, 0x0d, 0x09) over GF(2^8). -/
def inv_mix_columns (s : AesState) : AesState :=
  ⟨dot 0x0e s.s00 ^^^ dot 0x0b s.s10 ^^^ dot 0x0d s.s20 ^^^ dot 0x09 s.s30,
   dot 0x0e s.s01 ^^^ dot 0x0b s.s11 ^^^ dot 0x0d s.s21 ^^^ dot 0x09 s.s31,
   dot 0x0e s.s02 ^^^ dot 0x0b s.s12 ^^^ dot 0x0d s.s22 ^^^ dot 0x09 s.s32,
   dot 0x0e s.s03 ^^^ dot 0x0b s.s13 ^^^ dot 0x0d s.s23 ^^^ dot 0x09 s.s33,
   dot 0x09 s.s00 ^^^ dot 0x0e s.s10 ^^^ dot 0x0b s.s20 ^^^ dot 0x0d s.s30,
   dot 0x09 s.s01 ^^^ dot 0x0e s.s11 ^^^ dot 0x0b s.s21 ^^^ dot 0x0d s.s31,
   dot 0x09 s.s02 ^^^ dot 0x0e s.s12 ^^^ dot 0x0b s.s22 ^^^ dot 0x0d s.s32,
   dot 0x09 s.s03 ^^^ dot 0x0e s.s13 ^^^ dot 0x0b s.s23 ^^^ dot 0x0d s.s33,
   dot 0x0d s.s00 ^^^ dot 0x09 s.s10 ^^^ dot 0x0e s.s20 ^^^ dot 0x0b s.s30,
   dot 0x0d s.s01 ^^^ dot 0x09 s.s11 ^^^ dot 0x0e s.s21 ^^^ dot 0x0b s.s31,
   dot 0x0d s.s02 ^^^ dot 0x09 s.s12 ^^^ dot 0x0e s.s22 ^^^ dot 0x0b s.s32,
   dot 0x0d s.s03 ^^^ dot 0x09 s.s13 ^^^ dot 0x0e s.s23 ^^^ dot 0x0b s.s33,
   dot 0x0b s.s00 ^^^ dot 0x0d s.s10 ^^^ dot 0x09 s.s20 ^^^ dot 0x0e s.s30,
   dot 0x0b s.s01 ^^^ dot 0x0d s.s11 ^^^ dot 0x09 s.s21 ^^^ dot 0x0e s.s31,
   dot 0x0b s.s02 ^^^ dot 0x0d s.s12 ^^^ dot 0x09 s.s22 ^^^ dot 0x0e s.s32,
   dot 0x0b s.s03 ^^^ dot 0x0d s.s13 ^^^ dot 0x09 s.s23 ^^^ dot 0x0e s.s33⟩

/-- Round-key slice `w[4*k..4*(k+1)]` passed to `add_round_key`. -/
def wslice (w : List (List Nat)) (k : Nat) : List (List Nat) :=
  [w.getD (4 * k) [], w.getD (4 * k + 1) [],
   w.getD (4 * k + 2) [], w.getD (4 * k + 3) []]

/-- Body of one encryption round of `encrypt_block` (round index `round`,
`0 ≤ round < nr`): sub_bytes, shift_rows, mix_columns except on the last
round, then add_round_key with slice `round+1`. -/
def encRound (w : List (List Nat)) (nr round : Nat) (s : AesState) : AesState :=
  let s1 := shift_rows (sub_bytes s)
  let s2 := if round < nr - 1 then mix_columns s1 else s1
  add_round_key s2 (wslice w (round + 1))

/-- The `for round in 0..nr` loop of `encrypt_block`, unrolled from the
top: `encRounds w nr k s` applies rounds `0, 1, ..., k-1` in that order
(round `k-1` outermost); `encRounds w nr nr` is the whole loop. -/
def encRounds (w : List (List Nat)) (nr : Nat) : Nat → AesState → AesState
  | 0, s => s
  | Nat.succ k, s => encRound w nr k (encRounds w nr k s)

/-- encrypt_block of `aes.rs` on a 16-byte block. -/
def encrypt_block (w : List (List Nat)) (nr : Nat) (input : List Nat) : List Nat :=
  storeState (encRounds w nr nr (add_round_key (loadState input) (wslice w 0)))

/-- Body of one decryption round of `decrypt_block` (`round` counts down
from `nr` to 1): inv_shift_rows, inv_sub_bytes, add_round_key with slice
`round-1`, and inv_mix_columns except when `round = 1`. -/
def decRound (w : List (List Nat)) (round : Nat) (s : AesState) : AesState :=
  let s1 := inv_sub_bytes (inv_shift_rows s)
  let s2 := add_round_key s1 (wslice w (round - 1))
  if 1 < round then inv_mix_columns s2 else s2

/-- The `while round > 0` loop of `decrypt_block`: `decRounds w round s`
runs the body at `round, round-1, ..., 1`. -/
def decRounds (w : List (List Nat)) : Nat → AesState → AesState
  | 0, s => s
  | Nat.succ k, s => decRounds w k (decRound w (Nat.succ k) s)

/-- decrypt_block of `aes.rs` on a 16-byte block. -/
def decrypt_block (w : List (List Nat)) (nr : Nat) (input : List Nat) : List Nat :=
  storeState (decRounds w nr (add_round_key (loadState input) (wslice w nr)))

/-- AesKey of `aes.rs`: a 128-, 192- or 256-bit key.  The Rust wrappers
hold `[u8; 16]`, `[u8; 24]` and `[u8; 32]` arrays; the length and byte
bounds of those array types are carried as constructor arguments. -/
inductive AesKey where
  | key128 : (k : List Nat) → k.length = 16 → (∀ b ∈ k, b < 256) → AesKey
  | key192 : (k : List Nat) → k.length = 24 → (∀ b ∈ k, b < 256) → AesKey
  | key256 : (k : List Nat) → k.length = 32 → (∀ b ∈ k, b < 256) → AesKey

/-- The `keybytes` component of the `match key` in each mode function. -/
def keyBytes : AesKey → List Nat
  | .key128 k _ _ => k
  | .key192 k _ _ => k
  | .key256 k _ _ => k

/-- The `keysize` component of the `match key` in each mode function. -/
def keysize : AesKey → Nat
  | .key128 _ _ _ => 16
  | .key192 _ _ _ => 24
  | .key256 _ _ _ => 32

/-- encrypt of `aes.rs`: single-block AES encryption with round count
`(keysize >> 2) + 6` and the schedule derived from the key. -/
def encrypt (key : AesKey) (input : List Nat) : List Nat :=
  encrypt_block (compute_key_schedule (keyBytes key)) ((keysize key >>> 2) + 6) input

/-- decrypt of `aes.rs`: single-block AES decryption. -/
def decrypt (key : AesKey) (input : List Nat) : List Nat :=
  decrypt_block (compute_key_schedule (keyBytes key)) ((keysize key >>> 2) + 6) input

namespace pkcs7

/-- pad of `padding.rs`: append `padding = block_size - (len % block_size)`
bytes, each of value `padding as u8` (truncated modulo 256). -/
def pad (b : List Nat) (block_size : Nat) : List Nat :=
  b ++ List.replicate (block_size - b.length % block_size)
    ((block_size - b.length % block_size) % 256)

end pkcs7

/-- Structural worker for `chunks16`: the fuel only bounds the recursion
depth (any fuel at least the list length yields the same result, see
`chunksGo_congr`), keeping the definition kernel-reducible. -/
def chunksGo : Nat → List Nat → List (List Nat)
  | _, [] => []
  | 0, _ :: _ => []
  | Nat.succ f, x :: xs => (x :: xs).take 16 :: chunksGo f ((x :: xs).drop 16)

/-- The `.chunks(16)` iterator of the mode loops: split a byte list into
consecutive chunks of 16 bytes, the last chunk possibly shorter. -/
def chunks16 (l : List Nat) : List (List Nat) := chunksGo l.length l

/-- ECB encryption loop of `encrypt_ecb`: encrypt each 16-byte chunk and
concatenate the outputs.  On this path every chunk of the padded plaintext
has exactly 16 bytes, so the `input[x] = chunk[x]` copy never panics. -/
def ecbEncChunks (w : List (List Nat)) (nr : Nat) : List (List Nat) → List Nat
  | [] => []
  | ch :: rest => encrypt_block w nr ch ++ ecbEncChunks w nr rest

/-- encrypt_ecb of `aes.rs`: PKCS#7-pad to 16 bytes, then encrypt each
block independently. -/
def encrypt_ecb (key : AesKey) (plaintext : List Nat) : List Nat :=
  ecbEncChunks (compute_key_schedule (keyBytes key)) ((keysize key >>> 2) + 6)
    (chunks16 (pkcs7.pad plaintext 16))

/-- ECB decryption loop of `decrypt_ecb`.  A chunk shorter than 16 bytes
makes the `input[x] = chunk[x]` copy panic (index out of bounds); `none`
models that panic. -/
def ecbDecChunks (w : List (List Nat)) (nr : Nat) : List (List Nat) → Option (List Nat)
  | [] => some []
  | ch :: rest =>
    if ch.length = 16 then
      (ecbDecChunks w nr rest).map fun t => decrypt_block w nr ch ++ t
    else none

/-- Trailing-padding removal at the end of `decrypt_ecb` and
`decrypt_cbc`: read the last byte as the padding length and truncate that
many bytes, with no validation.  `none` models the two panicking paths:
`result[res_len - 1]` on an empty buffer (index out of bounds) and
`res_len - padding_len` when the padding byte exceeds the buffer length
(integer underflow, a panic in debug builds). -/
def trunc_unpad (result : List Nat) : Option (List Nat) :=
  if result.length = 0 then none
  else
    let padding_len := result.getD (result.length - 1) 0
    if result.length < padding_len then none
    else some (result.take (result.length - padding_len))

/-- decrypt_ecb of `aes.rs`: decrypt each 16-byte chunk, concatenate, then
truncate the trailing padding. -/
def decrypt_ecb (key : AesKey) (ciphertext : List Nat) : Option (List Nat) :=
  (ecbDecChunks (compute_key_schedule (keyBytes key)) ((keysize key >>> 2) + 6)
      (chunks16 ciphertext)).bind trunc_unpad

/-- CBC encryption loop of `encrypt_cbc`: XOR each plaintext chunk with
the running chaining value `r` (initially the IV), encrypt, emit, and
chain the emitted ciphertext block. -/
def cbcEncChunks (w : List (List Nat)) (nr : Nat) : List Nat → List (List Nat) → List Nat
  | _r, [] => []
  | r, ch :: rest =>
    let output := encrypt_block w nr (List.zipWith (· ^^^ ·) ch r)
    output ++ cbcEncChunks w nr output rest

/-- encrypt_cbc of `aes.rs`. -/
def encrypt_cbc (key : AesKey) (iv : List Nat) (plaintext : List Nat) : List Nat :=
  cbcEncChunks (compute_key_schedule (keyBytes key)) ((keysize key >>> 2) + 6)
    iv (chunks16 (pkcs7.pad plaintext 16))

/-- CBC decryption loop of `decrypt_cbc`: decrypt each chunk, XOR with the
chaining value, and chain the consumed ciphertext chunk; a short chunk
panics (`none`), as in `ecbDecChunks`. -/
def cbcDecChunks (w : List (List Nat)) (nr : Nat) : List Nat → List (List Nat) → Option (List Nat)
  | _r, [] => some []
  | r, ch :: rest =>
    if ch.length = 16 then
      (cbcDecChunks w nr ch rest).map fun t =>
        List.zipWith (· ^^^ ·) (decrypt_block w nr ch) r ++ t
    else none

/-- decrypt_cbc of `aes.rs`. -/
def decrypt_cbc (key : AesKey) (iv : List Nat) (ciphertext : List Nat) : Option (List Nat) :=
  (cbcDecChunks (compute_key_schedule (keyBytes key)) ((keysize key >>> 2) + 6)
      iv (chunks16 ciphertext)).bind trunc_unpad

/-- Big-endian `read_u64` over the first 8 entries of a byte list, as done
by `Cursor::read_u64::<BigEndian>` on the IV. -/
def be_read8 (l : List Nat) : Nat :=
  ((l.take 8).foldl (fun acc b => acc * 256 + b) 0)

/-- Big-endian `write_u64`: the 8 bytes of `v` as a `u64`.  Extracting
each byte with `% 256` makes the encoding depend only on `v % 2^64`, which
is exactly the wrapping of the Rust `u64` counter. -/
def be_bytes8 (v : Nat) : List Nat :=
  [v / 2 ^ 56 % 256, v / 2 ^ 48 % 256, v / 2 ^ 40 % 256, v / 2 ^ 32 % 256,
   v / 2 ^ 24 % 256, v / 2 ^ 16 % 256, v / 2 ^ 8 % 256, v % 256]

/-- CTR keystream loop shared by `encrypt_ctr` and `decrypt_ctr` (their
bodies are identical): for each chunk, encrypt `nonce ++ ctr` (both
big-endian), XOR the keystream into the chunk (truncated to the chunk
length), and increment the counter.  The Rust `ctr` is a `u64`; here it is
carried as an unbounded `Nat` and reduced modulo 2^64 by `be_bytes8`,
matching the wrapping (release-build) semantics of `ctr += 1` — in debug
builds the increment past 2^64 - 1 panics instead. -/
def ctrChunks (w : List (List Nat)) (nr nonce : Nat) : Nat → List (List Nat) → List Nat
  | _ctr, [] => []
  | ctr, ch :: rest =>
    let output := encrypt_block w nr (be_bytes8 nonce ++ be_bytes8 ctr)
    List.zipWith (· ^^^ ·) ch output ++ ctrChunks w nr nonce (ctr + 1) rest

/-- encrypt_ctr of `aes.rs`: the high 8 IV bytes are the nonce, the low 8
IV bytes the initial counter, both big-endian; no padding. -/
def encrypt_ctr (key : AesKey) (iv : List Nat) (plaintext : List Nat) : List Nat :=
  ctrChunks (compute_key_schedule (keyBytes key)) ((keysize key >>> 2) + 6)
    (be_read8 iv) (be_read8 (iv.drop 8)) (chunks16 plaintext)

/-- decrypt_ctr of `aes.rs`: byte-for-byte the same loop as `encrypt_ctr`. -/
def decrypt_ctr (key : AesKey) (iv : List Nat) (ciphertext : List Nat) : List Nat :=
  ctrChunks (compute_key_schedule (keyBytes key)) ((keysize key >>> 2) + 6)
    (be_read8 iv) (be_read8 (iv.drop 8)) (chunks16 ciphertext)

/-- Duplicate scan of `detect_ecb`: walk the chunks keeping the set of
chunks seen so far (the `HashSet` of the Rust code; membership in the set
equals list membership here because chunk equality is byte equality). -/
def detectLoop : List (List Nat) → List (List Nat) → Bool
  | _seen, [] => false
  | seen, ch :: rest => if ch ∈ seen then true else detectLoop (ch :: seen) rest

/-- detect_ecb of `aes.rs`: false unless the length is a multiple of 16;
otherwise report whether two equal 16-byte chunks occur. -/
def detect_ecb (input : List Nat) : Bool :=
  if input.length % 16 ≠ 0 then false
  else detectLoop [] (chunks16 input)

/-- Nonce read from an IV: `be_read8` of its high 8 bytes. -/
def ctr_nonce (iv : List Nat) : Nat := be_read8 iv

/-- Initial counter read from an IV: `be_read8` of its low 8 bytes. -/
def ctr_init (iv : List Nat) : Nat := be_read8 (iv.drop 8)

/-- The 16-byte block fed to the block cipher for keystream block `j` of a
CTR stream with the given IV (nonce unchanged, counter advanced by `j`). -/
def ctr_block_input (iv : List Nat) (j : Nat) : List Nat :=
  be_bytes8 (ctr_nonce iv) ++ be_bytes8 (ctr_init iv + j)

/-- Modelled from the spec: the standard AES round-constant update, which
`compute_key_schedule` is specified to follow — the constant doubles in
GF(2^8) (reduction polynomial 0x11B) each period, i.e. it is replaced by
0x1b exactly when the doubling would overflow past 0x80.  This is `xtime`.
The repository has no separate implementation of this sequence; it is the
comparison point for the `i % 36 == 0` reset in the code. -/
def ksLoopStdRcon (keywords : Nat) : Nat → Nat → Nat → List (List Nat) → List (List Nat)
  | 0, _i, _rcon, w => w
  | Nat.succ fuel, i, rcon, w =>
    let prev := w.getD (i - 1) []
    if i % keywords = 0 then
      let t := sub_word (rot_word prev)
      let t2 := [t.getD 0 0 ^^^ rcon, t.getD 1 0, t.getD 2 0, t.getD 3 0]
      ksLoopStdRcon keywords fuel (i + 1) (xtime rcon)
        (w ++ [xor_word t2 (w.getD (i - keywords) [])])
    else if 6 < keywords ∧ i % keywords = 4 then
      ksLoopStdRcon keywords fuel (i + 1) rcon
        (w ++ [xor_word (sub_word prev) (w.getD (i - keywords) [])])
    else
      ksLoopStdRcon keywords fuel (i + 1) rcon
        (w ++ [xor_word prev (w.getD (i - keywords) [])])

/-- Modelled from the spec: `compute_key_schedule` with the standard AES
Rcon sequence (see `ksLoopStdRcon`); identical to the source otherwise. -/
def compute_key_schedule_std (key : List Nat) : List (List Nat) :=
  let keywords := key.length / 4
  ksLoopStdRcon keywords (4 * (keywords + 7) - keywords) keywords 0x01 (key_words key)

/-- Byte-boundedness of a byte list (every entry fits in a `u8`). -/
def bytesOk (l : List Nat) : Prop := ∀ b ∈ l, b < 256

/-- Byte-boundedness of a word list. -/
def schedOk (w : List (List Nat)) : Prop := ∀ word ∈ w, bytesOk word

/-- Byte-boundedness of all 16 bytes of a state. -/
def stateOk (s : AesState) : Prop :=
  s.s00 < 256 ∧ s.s01 < 256 ∧ s.s02 < 256 ∧ s.s03 < 256 ∧
  s.s10 < 256 ∧ s.s11 < 256 ∧ s.s12 < 256 ∧ s.s13 < 256 ∧
  s.s20 < 256 ∧ s.s21 < 256 ∧ s.s22 < 256 ∧ s.s23 < 256 ∧
  s.s30 < 256 ∧ s.s31 < 256 ∧ s.s32 < 256 ∧ s.s33 < 256

/-- The key `000102030405060708090a0b0c0d0e0f` used by the known-answer
tests of `aes.rs`. -/
def kat_key : AesKey :=
  .key128 [0x00, 0x01, 0x02, 0x03, 0x04, 0x05, 0x06, 0x07,
           0x08, 0x09, 0x0a, 0x0b, 0x0c, 0x0d, 0x0e, 0x0f]
    rfl (by decide)

/-- ASCII bytes of the block `"YELLOW SUBMARINE"`. -/
def yellow_submarine : List Nat :=
  [0x59, 0x45, 0x4c, 0x4c, 0x4f, 0x57, 0x20, 0x53,
   0x55, 0x42, 0x4d, 0x41, 0x52, 0x49, 0x4e, 0x45]

instance (l : List Nat) : Decidable (bytesOk l) :=
  inferInstanceAs (Decidable (∀ b ∈ l, b < 256))

/-! Basic XOR facts used throughout. -/

theorem xor_lc (a b c : Nat) : a ^^^ (b ^^^ c) = b ^^^ (a ^^^ c) := by
  rw [← Nat.xor_assoc, Nat.xor_comm a b, Nat.xor_assoc]

theorem xor_lt_256 {a b : Nat} (ha : a < 256) (hb : b < 256) : a ^^^ b < 256 := by
  have h8 : (256 : Nat) = 2 ^ 8 := by norm_num
  rw [h8] at ha hb ⊢
  exact Nat.xor_lt_two_pow ha hb

theorem xtime_lt (x : Nat) : xtime x < 256 := by
  unfold xtime
  apply xor_lt_256 (Nat.mod_lt _ (by norm_num))
  split <;> norm_num

theorem dotLoop_lt (y : Nat) :
    ∀ (f x p m : Nat), x < 256 → p < 256 → dotLoop y x p m f < 256 := by
  intro f
  induction f with
  | zero => intro x p m hx hp; exact hp
  | succ f ih =>
    intro x p m hx hp
    refine ih (xtime x) _ _ (xtime_lt x) ?_
    split
    · exact xor_lt_256 hp hx
    · exact hp

theorem dot_lt {x : Nat} (hx : x < 256) (y : Nat) : dot x y < 256 :=
  dotLoop_lt y 8 x 0 1 hx (by norm_num)

/-- Powers of two survive the `u8` mask doubling of `dotLoop`: the next
mask is zero or again a power of two. -/
theorem mask_step {m : Nat} (hm : m = 0 ∨ ∃ i, m = 2 ^ i) :
    (2 * m) % 256 = 0 ∨ ∃ i, (2 * m) % 256 = 2 ^ i := by
  obtain rfl | ⟨i, rfl⟩ := hm
  · left; norm_num
  · have h21 : 2 * 2 ^ i = 2 ^ (i + 1) := by rw [pow_succ, Nat.mul_comm]
    by_cases hi : i < 7
    · right
      refine ⟨i + 1, ?_⟩
      rw [h21, Nat.mod_eq_of_lt]
      calc 2 ^ (i + 1) ≤ 2 ^ 7 := Nat.pow_le_pow_right (by norm_num) (by omega)
        _ < 256 := by norm_num
    · left
      have h1 : 2 * 2 ^ i = 256 * 2 ^ (i - 7) := by
        have h8 : (8 : Nat) + (i - 7) = i + 1 := by omega
        calc 2 * 2 ^ i = 2 ^ (i + 1) := h21
          _ = 2 ^ (8 + (i - 7)) := by rw [h8]
          _ = 256 * 2 ^ (i - 7) := by rw [pow_add]; norm_num
      rw [h1]
      exact Nat.mul_mod_right 256 _

/-- The `dot` loop is additive in the scanned argument `y`: scanning
`y1 ^^^ y2` with products `p1 ^^^ p2` gives the XOR of the two separate
scans, provided the mask is zero or a single bit (as it always is). -/
theorem dotLoop_xor :
    ∀ (f x p1 p2 m y1 y2 : Nat), (m = 0 ∨ ∃ i, m = 2 ^ i) →
      dotLoop (y1 ^^^ y2) x (p1 ^^^ p2) m f =
        dotLoop y1 x p1 m f ^^^ dotLoop y2 x p2 m f := by
  intro f
  induction f with
  | zero => intro x p1 p2 m y1 y2 _; rfl
  | succ f ih =>
    intro x p1 p2 m y1 y2 hm
    have hnext := mask_step hm
    obtain rfl | ⟨i, rfl⟩ := hm
    · simp only [dotLoop, Nat.and_zero, ne_eq, not_true_eq_false, if_false]
      exact ih (xtime x) p1 p2 ((2 * 0) % 256) y1 y2 hnext
    · have h2 : (0 : Nat) < 2 ^ i := Nat.pos_pow_of_pos i (by norm_num)
      have hyes : (2 : Nat) ^ i ≠ 0 := h2.ne'
      have hno : ¬ ((0 : Nat) ≠ 0) := by simp
      simp only [dotLoop]
      cases hb1 : y1.testBit i <;> cases hb2 : y2.testBit i
      · -- neither bit set
        have e1 : y1 &&& 2 ^ i = 0 := by rw [Nat.and_two_pow, hb1]; simp
        have e2 : y2 &&& 2 ^ i = 0 := by rw [Nat.and_two_pow, hb2]; simp
        have e3 : (y1 ^^^ y2) &&& 2 ^ i = 0 := by
          rw [Nat.and_two_pow, Nat.testBit_xor, hb1, hb2]; simp
        rw [e1, e2, e3, if_neg hno, if_neg hno, if_neg hno]
        exact ih (xtime x) p1 p2 _ y1 y2 hnext
      · -- y2 bit set only
        have e1 : y1 &&& 2 ^ i = 0 := by rw [Nat.and_two_pow, hb1]; simp
        have e2 : y2 &&& 2 ^ i = 2 ^ i := by rw [Nat.and_two_pow, hb2]; simp
        have e3 : (y1 ^^^ y2) &&& 2 ^ i = 2 ^ i := by
          rw [Nat.and_two_pow, Nat.testBit_xor, hb1, hb2]; simp
        rw [e1, e2, e3, if_pos hyes, if_neg hno, if_pos hyes, Nat.xor_assoc]
        exact ih (xtime x) p1 (p2 ^^^ x) _ y1 y2 hnext
      · -- y1 bit set only
        have e1 : y1 &&& 2 ^ i = 2 ^ i := by rw [Nat.and_two_pow, hb1]; simp
        have e2 : y2 &&& 2 ^ i = 0 := by rw [Nat.and_two_pow, hb2]; simp
        have e3 : (y1 ^^^ y2) &&& 2 ^ i = 2 ^ i := by
          rw [Nat.and_two_pow, Nat.testBit_xor, hb1, hb2]; simp
        rw [e1, e2, e3, if_pos hyes, if_pos hyes, if_neg hno]
        have hre : p1 ^^^ p2 ^^^ x = (p1 ^^^ x) ^^^ p2 := by
          rw [Nat.xor_assoc, Nat.xor_comm p2 x, ← Nat.xor_assoc]
        rw [hre]
        exact ih (xtime x) (p1 ^^^ x) p2 _ y1 y2 hnext
      · -- both bits set
        have e1 : y1 &&& 2 ^ i = 2 ^ i := by rw [Nat.and_two_pow, hb1]; simp
        have e2 : y2 &&& 2 ^ i = 2 ^ i := by rw [Nat.and_two_pow, hb2]; simp
        have e3 : (y1 ^^^ y2) &&& 2 ^ i = 0 := by
          rw [Nat.and_two_pow, Nat.testBit_xor, hb1, hb2]; simp
        rw [e1, e2, e3, if_neg hno, if_pos hyes, if_pos hyes]
        have hre : p1 ^^^ p2 = (p1 ^^^ x) ^^^ (p2 ^^^ x) := by
          have hx : x ^^^ (p2 ^^^ x) = p2 := by
            rw [xor_lc, Nat.xor_self, Nat.xor_zero]
          rw [Nat.xor_assoc, hx]
        rw [hre]
        exact ih (xtime x) (p1 ^^^ x) (p2 ^^^ x) _ y1 y2 hnext

/-- dot is additive over XOR in its second argument. -/
theorem dot_xor (k a b : Nat) : dot k (a ^^^ b) = dot k a ^^^ dot k b := by
  have h0 : (0 : Nat) = 0 ^^^ 0 := rfl
  unfold dot
  rw [h0]
  exact dotLoop_xor 8 k 0 0 1 a b (Or.inr ⟨0, rfl⟩)

/-! S-box facts. -/

theorem sboxByte_lt (x : Nat) : sboxByte x < 256 := by
  have key : ∀ i j : Fin 16, (SBOX.getD i.val []).getD j.val 0 < 256 := by decide
  have hhi : (x &&& 0xf0) >>> 4 < 16 := by
    have h1 : x &&& 0xf0 ≤ 0xf0 := Nat.and_le_right
    have h2 : (x &&& 0xf0) >>> 4 = (x &&& 0xf0) / 16 := by
      rw [Nat.shiftRight_eq_div_pow]
    omega
  have hlo : x &&& 0x0f < 16 := by
    have h1 : x &&& 0x0f ≤ 0x0f := Nat.and_le_right
    omega
  exact key ⟨_, hhi⟩ ⟨_, hlo⟩

set_option maxRecDepth 10000 in
theorem invSbox_sbox {x : Nat} (h : x < 256) : invSboxByte (sboxByte x) = x := by
  have key : ∀ y : Fin 256, invSboxByte (sboxByte y.val) = y.val := by decide
  exact key ⟨x, h⟩

/-! The four byte-level identities expressing that the inv_mix_columns
matrix (14, 11, 13, 9) inverts the mix_columns matrix (2, 3, 1, 1)
in GF(2^8), checked exhaustively over all byte values. -/

set_option maxRecDepth 10000 in
theorem gf_inv_id0 {x : Nat} (h : x < 256) :
    dot 14 (dot 2 x) ^^^ dot 11 x ^^^ dot 13 x ^^^ dot 9 (dot 3 x) = x := by
  have key : ∀ y : Fin 256,
      dot 14 (dot 2 y.val) ^^^ dot 11 y.val ^^^ dot 13 y.val ^^^ dot 9 (dot 3 y.val) = y.val := by
    decide
  exact key ⟨x, h⟩

set_option maxRecDepth 10000 in
theorem gf_inv_id1 {x : Nat} (h : x < 256) :
    dot 14 (dot 3 x) ^^^ dot 11 (dot 2 x) ^^^ dot 13 x ^^^ dot 9 x = 0 := by
  have key : ∀ y : Fin 256,
      dot 14 (dot 3 y.val) ^^^ dot 11 (dot 2 y.val) ^^^ dot 13 y.val ^^^ dot 9 y.val = 0 := by
    decide
  exact key ⟨x, h⟩

set_option maxRecDepth 10000 in
theorem gf_inv_id2 {x : Nat} (h : x < 256) :
    dot 14 x ^^^ dot 11 (dot 3 x) ^^^ dot 13 (dot 2 x) ^^^ dot 9 x = 0 := by
  have key : ∀ y : Fin 256,
      dot 14 y.val ^^^ dot 11 (dot 3 y.val) ^^^ dot 13 (dot 2 y.val) ^^^ dot 9 y.val = 0 := by
    decide
  exact key ⟨x, h⟩

set_option maxRecDepth 10000 in
theorem gf_inv_id3 {x : Nat} (h : x < 256) :
    dot 14 x ^^^ dot 11 x ^^^ dot 13 (dot 3 x) ^^^ dot 9 (dot 2 x) = 0 := by
  have key : ∀ y : Fin 256,
      dot 14 y.val ^^^ dot 11 y.val ^^^ dot 13 (dot 3 y.val) ^^^ dot 9 (dot 2 y.val) = 0 := by
    decide
  exact key ⟨x, h⟩

/-! Per-row inversion of one mixed column, for bytes a b c d. -/

theorem invmix_row0 {a b c d : Nat} (ha : a < 256) (hb : b < 256) (hc : c < 256)
    (hd : d < 256) :
    dot 14 (dot 2 a ^^^ dot 3 b ^^^ c ^^^ d) ^^^ dot 11 (a ^^^ dot 2 b ^^^ dot 3 c ^^^ d) ^^^
      dot 13 (a ^^^ b ^^^ dot 2 c ^^^ dot 3 d) ^^^ dot 9 (dot 3 a ^^^ b ^^^ c ^^^ dot 2 d) = a := by
  simp only [dot_xor]
  trans (dot 14 (dot 2 a) ^^^ dot 11 a ^^^ dot 13 a ^^^ dot 9 (dot 3 a)) ^^^
    (dot 14 (dot 3 b) ^^^ dot 11 (dot 2 b) ^^^ dot 13 b ^^^ dot 9 b) ^^^
    (dot 14 c ^^^ dot 11 (dot 3 c) ^^^ dot 13 (dot 2 c) ^^^ dot 9 c) ^^^
    (dot 14 d ^^^ dot 11 d ^^^ dot 13 (dot 3 d) ^^^ dot 9 (dot 2 d))
  · simp only [Nat.xor_assoc, Nat.xor_comm, xor_lc]
  · rw [gf_inv_id0 ha, gf_inv_id1 hb, gf_inv_id2 hc, gf_inv_id3 hd]
    simp

theorem invmix_row1 {a b c d : Nat} (ha : a < 256) (hb : b < 256) (hc : c < 256)
    (hd : d < 256) :
    dot 9 (dot 2 a ^^^ dot 3 b ^^^ c ^^^ d) ^^^ dot 14 (a ^^^ dot 2 b ^^^ dot 3 c ^^^ d) ^^^
      dot 11 (a ^^^ b ^^^ dot 2 c ^^^ dot 3 d) ^^^ dot 13 (dot 3 a ^^^ b ^^^ c ^^^ dot 2 d) = b := by
  simp only [dot_xor]
  trans (dot 14 a ^^^ dot 11 a ^^^ dot 13 (dot 3 a) ^^^ dot 9 (dot 2 a)) ^^^
    (dot 14 (dot 2 b) ^^^ dot 11 b ^^^ dot 13 b ^^^ dot 9 (dot 3 b)) ^^^
    (dot 14 (dot 3 c) ^^^ dot 11 (dot 2 c) ^^^ dot 13 c ^^^ dot 9 c) ^^^
    (dot 14 d ^^^ dot 11 (dot 3 d) ^^^ dot 13 (dot 2 d) ^^^ dot 9 d)
  · simp only [Nat.xor_assoc, Nat.xor_comm, xor_lc]
  · rw [gf_inv_id3 ha, gf_inv_id0 hb, gf_inv_id1 hc, gf_inv_id2 hd]
    simp

theorem invmix_row2 {a b c d : Nat} (ha : a < 256) (hb : b < 256) (hc : c < 256)
    (hd : d < 256) :
    dot 13 (dot 2 a ^^^ dot 3 b ^^^ c ^^^ d) ^^^ dot 9 (a ^^^ dot 2 b ^^^ dot 3 c ^^^ d) ^^^
      dot 14 (a ^^^ b ^^^ dot 2 c ^^^ dot 3 d) ^^^ dot 11 (dot 3 a ^^^ b ^^^ c ^^^ dot 2 d) = c := by
  simp only [dot_xor]
  trans (dot 14 a ^^^ dot 11 (dot 3 a) ^^^ dot 13 (dot 2 a) ^^^ dot 9 a) ^^^
    (dot 14 b ^^^ dot 11 b ^^^ dot 13 (dot 3 b) ^^^ dot 9 (dot 2 b)) ^^^
    (dot 14 (dot 2 c) ^^^ dot 11 c ^^^ dot 13 c ^^^ dot 9 (dot 3 c)) ^^^
    (dot 14 (dot 3 d) ^^^ dot 11 (dot 2 d) ^^^ dot 13 d ^^^ dot 9 d)
  · simp only [Nat.xor_assoc, Nat.xor_comm, xor_lc]
  · rw [gf_inv_id2 ha, gf_inv_id3 hb, gf_inv_id0 hc, gf_inv_id1 hd]
    simp

theorem invmix_row3 {a b c d : Nat} (ha : a < 256) (hb : b < 256) (hc : c < 256)
    (hd : d < 256) :
    dot 11 (dot 2 a ^^^ dot 3 b ^^^ c ^^^ d) ^^^ dot 13 (a ^^^ dot 2 b ^^^ dot 3 c ^^^ d) ^^^
      dot 9 (a ^^^ b ^^^ dot 2 c ^^^ dot 3 d) ^^^ dot 14 (dot 3 a ^^^ b ^^^ c ^^^ dot 2 d) = d := by
  simp only [dot_xor]
  trans (dot 14 (dot 3 a) ^^^ dot 11 (dot 2 a) ^^^ dot 13 a ^^^ dot 9 a) ^^^
    (dot 14 b ^^^ dot 11 (dot 3 b) ^^^ dot 13 (dot 2 b) ^^^ dot 9 b) ^^^
    (dot 14 c ^^^ dot 11 c ^^^ dot 13 (dot 3 c) ^^^ dot 9 (dot 2 c)) ^^^
    (dot 14 (dot 2 d) ^^^ dot 11 d ^^^ dot 13 d ^^^ dot 9 (dot 3 d))
  · simp only [Nat.xor_assoc, Nat.xor_comm, xor_lc]
  · rw [gf_inv_id1 ha, gf_inv_id2 hb, gf_inv_id3 hc, gf_inv_id0 hd]
    simp

/-! Byte-bound bookkeeping. -/

theorem getD_lt {l : List Nat} (h : bytesOk l) (i : Nat) : l.getD i 0 < 256 := by
  by_cases hi : i < l.length
  · rw [List.getD_eq_getElem _ _ hi]
    exact h _ (List.getElem_mem hi)
  · rw [List.getD_eq_default _ _ (by omega)]
    norm_num

theorem schedOk_getD {w : List (List Nat)} (h : schedOk w) (i : Nat) :
    bytesOk (w.getD i []) := by
  by_cases hi : i < w.length
  · rw [List.getD_eq_getElem _ _ hi]
    exact h _ (List.getElem_mem hi)
  · rw [List.getD_eq_default _ _ (by omega)]
    intro b hb
    simp at hb

theorem wByte_wslice_lt {w : List (List Nat)} (hw : schedOk w) (k c r : Nat) :
    wByte (wslice w k) c r < 256 := by
  match c with
  | 0 => exact getD_lt (schedOk_getD hw (4 * k)) r
  | 1 => exact getD_lt (schedOk_getD hw (4 * k + 1)) r
  | 2 => exact getD_lt (schedOk_getD hw (4 * k + 2)) r
  | 3 => exact getD_lt (schedOk_getD hw (4 * k + 3)) r
  | (n + 4) =>
    show (([] : List Nat).getD r 0) < 256
    norm_num [List.getD]

theorem stateOk_load {l : List Nat} (h : bytesOk l) : stateOk (loadState l) :=
  ⟨getD_lt h 0, getD_lt h 4, getD_lt h 8, getD_lt h 12,
   getD_lt h 1, getD_lt h 5, getD_lt h 9, getD_lt h 13,
   getD_lt h 2, getD_lt h 6, getD_lt h 10, getD_lt h 14,
   getD_lt h 3, getD_lt h 7, getD_lt h 11, getD_lt h 15⟩

theorem bytesOk_store {s : AesState} (hs : stateOk s) : bytesOk (storeState s) := by
  obtain ⟨f00, f01, f02, f03, f10, f11, f12, f13,
    f20, f21, f22, f23, f30, f31, f32, f33⟩ := s
  obtain ⟨h00, h01, h02, h03, h10, h11, h12, h13,
    h20, h21, h22, h23, h30, h31, h32, h33⟩ := hs
  intro b hb
  simp only [storeState, List.mem_cons, List.not_mem_nil, or_false] at hb
  rcases hb with rfl | rfl | rfl | rfl | rfl | rfl | rfl | rfl | rfl | rfl |
    rfl | rfl | rfl | rfl | rfl | rfl <;> assumption

theorem stateOk_sub (s : AesState) : stateOk (sub_bytes s) :=
  ⟨sboxByte_lt _, sboxByte_lt _, sboxByte_lt _, sboxByte_lt _,
   sboxByte_lt _, sboxByte_lt _, sboxByte_lt _, sboxByte_lt _,
   sboxByte_lt _, sboxByte_lt _, sboxByte_lt _, sboxByte_lt _,
   sboxByte_lt _, sboxByte_lt _, sboxByte_lt _, sboxByte_lt _⟩

theorem stateOk_shift {s : AesState} (hs : stateOk s) : stateOk (shift_rows s) := by
  obtain ⟨h00, h01, h02, h03, h10, h11, h12, h13,
    h20, h21, h22, h23, h30, h31, h32, h33⟩ := hs
  exact ⟨h00, h01, h02, h03, h11, h12, h13, h10,
    h22, h23, h20, h21, h33, h30, h31, h32⟩

theorem mixb0 {a b c d : Nat} (hc : c < 256) (hd : d < 256) :
    dot 2 a ^^^ dot 3 b ^^^ c ^^^ d < 256 :=
  xor_lt_256 (xor_lt_256 (xor_lt_256 (dot_lt (by norm_num) _) (dot_lt (by norm_num) _)) hc) hd

theorem mixb1 {a b c d : Nat} (ha : a < 256) (hd : d < 256) :
    a ^^^ dot 2 b ^^^ dot 3 c ^^^ d < 256 :=
  xor_lt_256 (xor_lt_256 (xor_lt_256 ha (dot_lt (by norm_num) _)) (dot_lt (by norm_num) _)) hd

theorem mixb2 {a b c d : Nat} (ha : a < 256) (hb : b < 256) :
    a ^^^ b ^^^ dot 2 c ^^^ dot 3 d < 256 :=
  xor_lt_256 (xor_lt_256 (xor_lt_256 ha hb) (dot_lt (by norm_num) _)) (dot_lt (by norm_num) _)

theorem mixb3 {a b c d : Nat} (hb : b < 256) (hc : c < 256) :
    dot 3 a ^^^ b ^^^ c ^^^ dot 2 d < 256 :=
  xor_lt_256 (xor_lt_256 (xor_lt_256 (dot_lt (by norm_num) _) hb) hc) (dot_lt (by norm_num) _)

theorem stateOk_mix {s : AesState} (hs : stateOk s) : stateOk (mix_columns s) := by
  obtain ⟨h00, h01, h02, h03, h10, h11, h12, h13,
    h20, h21, h22, h23, h30, h31, h32, h33⟩ := hs
  exact ⟨mixb0 h20 h30, mixb0 h21 h31, mixb0 h22 h32, mixb0 h23 h33,
    mixb1 h00 h30, mixb1 h01 h31, mixb1 h02 h32, mixb1 h03 h33,
    mixb2 h00 h10, mixb2 h01 h11, mixb2 h02 h12, mixb2 h03 h13,
    mixb3 h10 h20, mixb3 h11 h21, mixb3 h12 h22, mixb3 h13 h23⟩

theorem stateOk_ark {s : AesState} (hs : stateOk s) {w : List (List Nat)}
    (hw : schedOk w) (k : Nat) : stateOk (add_round_key s (wslice w k)) := by
  obtain ⟨h00, h01, h02, h03, h10, h11, h12, h13,
    h20, h21, h22, h23, h30, h31, h32, h33⟩ := hs
  exact ⟨xor_lt_256 h00 (wByte_wslice_lt hw k 0 0), xor_lt_256 h01 (wByte_wslice_lt hw k 1 0),
    xor_lt_256 h02 (wByte_wslice_lt hw k 2 0), xor_lt_256 h03 (wByte_wslice_lt hw k 3 0),
    xor_lt_256 h10 (wByte_wslice_lt hw k 0 1), xor_lt_256 h11 (wByte_wslice_lt hw k 1 1),
    xor_lt_256 h12 (wByte_wslice_lt hw k 2 1), xor_lt_256 h13 (wByte_wslice_lt hw k 3 1),
    xor_lt_256 h20 (wByte_wslice_lt hw k 0 2), xor_lt_256 h21 (wByte_wslice_lt hw k 1 2),
    xor_lt_256 h22 (wByte_wslice_lt hw k 2 2), xor_lt_256 h23 (wByte_wslice_lt hw k 3 2),
    xor_lt_256 h30 (wByte_wslice_lt hw k 0 3), xor_lt_256 h31 (wByte_wslice_lt hw k 1 3),
    xor_lt_256 h32 (wByte_wslice_lt hw k 2 3), xor_lt_256 h33 (wByte_wslice_lt hw k 3 3)⟩

/-! Inversion of the individual state operations. -/

theorem inv_shift_shift (s : AesState) : inv_shift_rows (shift_rows s) = s := by
  cases s
  rfl

theorem ark_ark (s : AesState) (ws : List (List Nat)) :
    add_round_key (add_round_key s ws) ws = s := by
  cases s
  simp [add_round_key, Nat.xor_cancel_right]

theorem inv_sub_sub {s : AesState} (hs : stateOk s) :
    inv_sub_bytes (sub_bytes s) = s := by
  obtain ⟨f00, f01, f02, f03, f10, f11, f12, f13,
    f20, f21, f22, f23, f30, f31, f32, f33⟩ := s
  obtain ⟨h00, h01, h02, h03, h10, h11, h12, h13,
    h20, h21, h22, h23, h30, h31, h32, h33⟩ := hs
  simp only [sub_bytes, inv_sub_bytes, AesState.mk.injEq]
  exact ⟨invSbox_sbox h00, invSbox_sbox h01, invSbox_sbox h02, invSbox_sbox h03,
    invSbox_sbox h10, invSbox_sbox h11, invSbox_sbox h12, invSbox_sbox h13,
    invSbox_sbox h20, invSbox_sbox h21, invSbox_sbox h22, invSbox_sbox h23,
    invSbox_sbox h30, invSbox_sbox h31, invSbox_sbox h32, invSbox_sbox h33⟩

theorem inv_mix_mix {s : AesState} (hs : stateOk s) :
    inv_mix_columns (mix_columns s) = s := by
  obtain ⟨f00, f01, f02, f03, f10, f11, f12, f13,
    f20, f21, f22, f23, f30, f31, f32, f33⟩ := s
  obtain ⟨h00, h01, h02, h03, h10, h11, h12, h13,
    h20, h21, h22, h23, h30, h31, h32, h33⟩ := hs
  simp only [mix_columns, inv_mix_columns, AesState.mk.injEq]
  exact ⟨invmix_row0 h00 h10 h20 h30, invmix_row0 h01 h11 h21 h31,
    invmix_row0 h02 h12 h22 h32, invmix_row0 h03 h13 h23 h33,
    invmix_row1 h00 h10 h20 h30, invmix_row1 h01 h11 h21 h31,
    invmix_row1 h02 h12 h22 h32, invmix_row1 h03 h13 h23 h33,
    invmix_row2 h00 h10 h20 h30, invmix_row2 h01 h11 h21 h31,
    invmix_row2 h02 h12 h22 h32, invmix_row2 h03 h13 h23 h33,
    invmix_row3 h00 h10 h20 h30, invmix_row3 h01 h11 h21 h31,
    invmix_row3 h02 h12 h22 h32, invmix_row3 h03 h13 h23 h33⟩

theorem load_store (s : AesState) : loadState (storeState s) = s := by
  cases s
  rfl

theorem store_load (l : List Nat) (h : l.length = 16) :
    storeState (loadState l) = l :=
  match l, h with
  | [_, _, _, _, _, _, _, _, _, _, _, _, _, _, _, _], _ => rfl

/-! Byte bounds for the key schedule. -/

theorem bytesOk_xor_word {u v : List Nat} (hu : bytesOk u) (hv : bytesOk v) :
    bytesOk (xor_word u v) := by
  intro b hb
  simp only [xor_word, List.mem_cons, List.not_mem_nil, or_false] at hb
  rcases hb with rfl | rfl | rfl | rfl <;>
    exact xor_lt_256 (getD_lt hu _) (getD_lt hv _)

theorem bytesOk_sub_word (w : List Nat) : bytesOk (sub_word w) := by
  intro b hb
  simp only [sub_word, List.mem_cons, List.not_mem_nil, or_false] at hb
  rcases hb with rfl | rfl | rfl | rfl <;> exact sboxByte_lt _

theorem ksLoop_schedOk (kw : Nat) :
    ∀ (f i rcon : Nat) (w : List (List Nat)), schedOk w → rcon < 256 →
      schedOk (ksLoop kw f i rcon w) := by
  intro f
  induction f with
  | zero => intro i rcon w hw _; exact hw
  | succ f ih =>
    intro i rcon w hw hrcon
    simp only [ksLoop]
    have happ : ∀ u : List Nat, bytesOk u → schedOk (w ++ [u]) := by
      intro u hu word hword
      rcases List.mem_append.mp hword with h | h
      · exact hw word h
      · rw [List.mem_singleton.mp h]; exact hu
    split
    · -- the rot/sub/rcon branch
      refine ih _ _ _ (happ _ ?_) (Nat.mod_lt _ (by norm_num))
      refine bytesOk_xor_word ?_ (schedOk_getD hw _)
      have hrc : (if i % 36 = 0 then 0x1b else rcon) < 256 := by
        split
        · norm_num
        · exact hrcon
      intro b hb
      simp only [List.mem_cons, List.not_mem_nil, or_false] at hb
      rcases hb with rfl | rfl | rfl | rfl
      · exact xor_lt_256 (getD_lt (bytesOk_sub_word _) _) hrc
      · exact getD_lt (bytesOk_sub_word _) _
      · exact getD_lt (bytesOk_sub_word _) _
      · exact getD_lt (bytesOk_sub_word _) _
    · split
      · exact ih _ _ _ (happ _ (bytesOk_xor_word (bytesOk_sub_word _) (schedOk_getD hw _))) hrcon
      · exact ih _ _ _ (happ _ (bytesOk_xor_word (schedOk_getD hw _) (schedOk_getD hw _))) hrcon

theorem schedOk_key_words {key : List Nat} (hk : bytesOk key) :
    schedOk (key_words key) := by
  intro word hword
  simp only [key_words, List.mem_map] at hword
  obtain ⟨j, _, rfl⟩ := hword
  intro b hb
  simp only [List.mem_cons, List.not_mem_nil, or_false] at hb
  rcases hb with rfl | rfl | rfl | rfl <;> exact getD_lt hk _

theorem schedOk_compute {key : List Nat} (hk : bytesOk key) :
    schedOk (compute_key_schedule key) :=
  ksLoop_schedOk _ _ _ _ _ (schedOk_key_words hk) (by norm_num)

/-! Byte bounds through the encryption rounds. -/

theorem stateOk_encRound {w : List (List Nat)} (hw : schedOk w) (nr round : Nat)
    (s : AesState) : stateOk (encRound w nr round s) := by
  unfold encRound
  have h1 : stateOk (shift_rows (sub_bytes s)) := stateOk_shift (stateOk_sub s)
  by_cases h : round < nr - 1
  · simp only [h, if_true]
    exact stateOk_ark (stateOk_mix h1) hw _
  · simp only [h, if_false]
    exact stateOk_ark h1 hw _

theorem stateOk_encRounds {w : List (List Nat)} (hw : schedOk w) (nr : Nat) :
    ∀ (k : Nat) (s : AesState), stateOk s → stateOk (encRounds w nr k s) := by
  intro k
  induction k with
  | zero => intro s hs; exact hs
  | succ k ih =>
    intro s hs
    exact stateOk_encRound hw nr k _

/-! The decryption loop undoes the encryption loop. -/

theorem decRounds_zero (w : List (List Nat)) (s : AesState) : decRounds w 0 s = s := rfl

theorem decRounds_succ (w : List (List Nat)) (k : Nat) (s : AesState) :
    decRounds w (k + 1) s = decRounds w k (decRound w (k + 1) s) := rfl

theorem encRounds_succ (w : List (List Nat)) (nr k : Nat) (s : AesState) :
    encRounds w nr (k + 1) s = encRound w nr k (encRounds w nr k s) := rfl

theorem decRounds_encRounds {w : List (List Nat)} (hw : schedOk w) (nr : Nat) :
    ∀ k, 1 ≤ k → k ≤ nr → ∀ t : AesState, stateOk t →
      decRounds w k (shift_rows (sub_bytes (encRounds w nr (k - 1) t))) =
        add_round_key t (wslice w 0) := by
  intro k
  induction k with
  | zero => intro h; omega
  | succ k ih =>
    intro _ hk t ht
    rw [Nat.add_sub_cancel]
    rcases Nat.eq_zero_or_pos k with h0 | hpos
    · subst h0
      rw [show encRounds w nr 0 t = t from rfl, decRounds_succ, decRounds_zero]
      simp only [decRound]
      rw [if_neg (by omega), inv_shift_shift, inv_sub_sub ht]
    · obtain ⟨m, rfl⟩ : ∃ m, k = m + 1 := ⟨k - 1, by omega⟩
      rw [encRounds_succ, decRounds_succ]
      simp only [decRound]
      rw [if_pos (show (1 : Nat) < m + 1 + 1 by omega)]
      rw [inv_shift_shift,
        inv_sub_sub (stateOk_encRound hw nr m (encRounds w nr m t))]
      rw [show m + 1 + 1 - 1 = m + 1 by omega]
      simp only [encRound]
      rw [if_pos (show m < nr - 1 by omega)]
      rw [ark_ark, inv_mix_mix (stateOk_shift (stateOk_sub _))]
      have hrec := ih (by omega) (by omega) t ht
      rw [Nat.add_sub_cancel] at hrec
      exact hrec

/-- Inverse property of the raw block transform: for any byte-bounded key
schedule and any 16-byte block, decrypt_block undoes encrypt_block. -/
theorem decrypt_encrypt_block {w : List (List Nat)} (hw : schedOk w) {nr : Nat}
    (hnr : 1 ≤ nr) {input : List Nat} (hlen : input.length = 16)
    (hb : bytesOk input) :
    decrypt_block w nr (encrypt_block w nr input) = input := by
  obtain ⟨m, rfl⟩ : ∃ m, nr = m + 1 := ⟨nr - 1, by omega⟩
  unfold encrypt_block decrypt_block
  rw [load_store, encRounds_succ]
  simp only [encRound]
  rw [if_neg (show ¬ m < m + 1 - 1 by omega), ark_ark]
  have hA : stateOk (add_round_key (loadState input) (wslice w 0)) :=
    stateOk_ark (stateOk_load hb) hw 0
  have core := decRounds_encRounds hw (m + 1) (m + 1) (by omega) (le_refl _) _ hA
  rw [Nat.add_sub_cancel] at core
  rw [core, ark_ark, store_load _ hlen]

/-! Facts about the whole-block wrappers. -/

theorem encrypt_block_length (w : List (List Nat)) (nr : Nat) (input : List Nat) :
    (encrypt_block w nr input).length = 16 := rfl

theorem bytesOk_encrypt_block {w : List (List Nat)} (hw : schedOk w) (nr : Nat)
    {input : List Nat} (hb : bytesOk input) : bytesOk (encrypt_block w nr input) :=
  bytesOk_store (stateOk_encRounds hw nr nr _ (stateOk_ark (stateOk_load hb) hw 0))

theorem keyBytes_bytesOk (key : AesKey) : bytesOk (keyBytes key) := by
  cases key <;> assumption

theorem keyBytes_length (key : AesKey) :
    (keyBytes key).length = 16 ∨ (keyBytes key).length = 24 ∨ (keyBytes key).length = 32 := by
  cases key with
  | key128 k h _ => exact Or.inl h
  | key192 k h _ => exact Or.inr (Or.inl h)
  | key256 k h _ => exact Or.inr (Or.inr h)

/-! PKCS#7 padding facts. -/

theorem pad_spec (b : List Nat) (S : Nat) (h1 : 1 ≤ S) (h2 : S ≤ 255) :
    pkcs7.pad b S = b ++ List.replicate (S - b.length % S) (S - b.length % S) := by
  have hmod : b.length % S < S := Nat.mod_lt _ (by omega)
  have hn : (S - b.length % S) % 256 = S - b.length % S := Nat.mod_eq_of_lt (by omega)
  unfold pkcs7.pad
  rw [hn]

theorem pad_length (b : List Nat) (S : Nat) :
    (pkcs7.pad b S).length = b.length + (S - b.length % S) := by
  simp [pkcs7.pad]

theorem pad16_mult (b : List Nat) : (pkcs7.pad b 16).length % 16 = 0 := by
  rw [pad_length]
  have : b.length % 16 < 16 := Nat.mod_lt _ (by norm_num)
  omega

theorem pad16_ne_nil (b : List Nat) : pkcs7.pad b 16 ≠ [] := by
  intro h
  have := pad_length b 16
  rw [h] at this
  have h2 : b.length % 16 < 16 := Nat.mod_lt _ (by norm_num)
  simp at this
  omega

theorem bytesOk_pad16 {b : List Nat} (hb : bytesOk b) : bytesOk (pkcs7.pad b 16) := by
  intro x hx
  unfold pkcs7.pad at hx
  rcases List.mem_append.mp hx with h | h
  · exact hb _ h
  · rw [List.eq_of_mem_replicate h]
    exact Nat.mod_lt _ (by norm_num)

theorem trunc_unpad_pad (b : List Nat) : trunc_unpad (pkcs7.pad b 16) = some b := by
  have hmod : b.length % 16 < 16 := Nat.mod_lt _ (by norm_num)
  set n := 16 - b.length % 16 with hn
  have hn1 : 1 ≤ n := by omega
  have hpe : pkcs7.pad b 16 = b ++ List.replicate n n := pad_spec b 16 (by norm_num) (by norm_num)
  have hlen : (pkcs7.pad b 16).length = b.length + n := by
    rw [hpe]; simp
  have hlast : (pkcs7.pad b 16).getD ((pkcs7.pad b 16).length - 1) 0 = n := by
    rw [hpe, hlen] at *
    rw [List.getD_append_right _ _ _ _ (by omega)]
    have hidx : b.length + n - 1 - b.length = n - 1 := by omega
    rw [hidx, List.getD_eq_getElem _ _ (by simp; omega), List.getElem_replicate]
  unfold trunc_unpad
  rw [hlast, if_neg (by omega), if_neg (by omega)]
  congr 1
  rw [hpe]
  have hl2 : (b ++ List.replicate n n).length - n = b.length := by simp
  rw [hl2]
  exact List.take_left b _

/-! Chunking facts. -/

theorem chunksGo_nil (f : Nat) : chunksGo f [] = [] := by
  cases f <;> rfl

theorem chunksGo_congr : ∀ (f1 f2 : Nat) (l : List Nat),
    l.length ≤ f1 → l.length ≤ f2 → chunksGo f1 l = chunksGo f2 l := by
  intro f1
  induction f1 with
  | zero =>
    intro f2 l h1 _
    have hnil : l = [] := List.length_eq_zero.mp (by omega)
    subst hnil
    rw [chunksGo_nil, chunksGo_nil]
  | succ g1 ih =>
    intro f2 l h1 h2
    cases l with
    | nil => rw [chunksGo_nil, chunksGo_nil]
    | cons x xs =>
      obtain ⟨g2, rfl⟩ : ∃ g2, f2 = g2 + 1 := ⟨f2 - 1, by simp at h2; omega⟩
      show (x :: xs).take 16 :: chunksGo g1 ((x :: xs).drop 16) =
        (x :: xs).take 16 :: chunksGo g2 ((x :: xs).drop 16)
      congr 1
      refine ih g2 _ ?_ ?_
      · simp only [List.length_drop, List.length_cons] at h1 ⊢
        omega
      · simp only [List.length_drop, List.length_cons] at h2 ⊢
        omega

theorem chunks16_nil : chunks16 [] = [] := rfl

theorem chunks16_ne {l : List Nat} (h : l ≠ []) :
    chunks16 l = l.take 16 :: chunks16 (l.drop 16) := by
  cases l with
  | nil => exact absurd rfl h
  | cons x xs =>
    show (x :: xs).take 16 :: chunksGo xs.length ((x :: xs).drop 16) = _
    congr 1
    exact chunksGo_congr xs.length ((x :: xs).drop 16).length _
      (by simp only [List.length_drop, List.length_cons]; omega) (le_refl _)

/-- Induction along the chunking structure. -/
theorem chunks16_ind (motive : List Nat → Prop) (base : motive [])
    (step : ∀ x : List Nat, x ≠ [] → motive (List.drop 16 x) → motive x)
    (l : List Nat) : motive l := by
  have H : ∀ (n : Nat) (l : List Nat), l.length ≤ n → motive l := by
    intro n
    induction n with
    | zero =>
      intro l hl
      have hnil : l = [] := List.length_eq_zero.mp (by omega)
      subst hnil
      exact base
    | succ n ih =>
      intro l hl
      cases l with
      | nil => exact base
      | cons x xs =>
        refine step _ (by simp) (ih _ ?_)
        simp at hl ⊢
        omega
  exact H l.length l (le_refl _)

theorem chunks16_append16 {a : List Nat} (b : List Nat) (h : a.length = 16) :
    chunks16 (a ++ b) = a :: chunks16 b := by
  have hne : a ++ b ≠ [] := by
    intro hc
    have := congrArg List.length hc
    simp [h] at this
  rw [chunks16_ne hne]
  congr 1
  · rw [← h, List.take_left]
  · congr 1
    rw [← h, List.drop_left]

theorem chunks16_flatten : ∀ l : List Nat, (chunks16 l).flatten = l := by
  intro l
  induction l using chunks16_ind with
  | base => rw [chunks16_nil]; rfl
  | step x hx ih =>
    rw [chunks16_ne hx]
    simp only [List.flatten_cons, ih, List.take_append_drop]

theorem chunks16_le : ∀ (l : List Nat), ∀ ch ∈ chunks16 l, ch.length ≤ 16 := by
  intro l
  induction l using chunks16_ind with
  | base => rw [chunks16_nil]; intro ch h; simp at h
  | step x hx ih =>
    rw [chunks16_ne hx]
    intro ch h
    rcases List.mem_cons.mp h with rfl | h2
    · simp
    · exact ih ch h2

theorem chunks16_full : ∀ (l : List Nat), l.length % 16 = 0 →
    ∀ ch ∈ chunks16 l, ch.length = 16 := by
  intro l
  induction l using chunks16_ind with
  | base => intro _ ch h; rw [chunks16_nil] at h; simp at h
  | step x hx ih =>
    intro hmod ch h
    have hpos : 0 < x.length := List.length_pos.mpr hx
    have h16 : 16 ≤ x.length := by omega
    rw [chunks16_ne hx] at h
    rcases List.mem_cons.mp h with rfl | h2
    · simp [h16]
    · refine ih ?_ ch h2
      simp only [List.length_drop]
      omega

theorem chunks16_bytesOk : ∀ (l : List Nat), bytesOk l →
    ∀ ch ∈ chunks16 l, bytesOk ch := by
  intro l
  induction l using chunks16_ind with
  | base => intro _ ch h; rw [chunks16_nil] at h; simp at h
  | step x hx ih =>
    intro hb ch h
    rw [chunks16_ne hx] at h
    rcases List.mem_cons.mp h with rfl | h2
    · intro b hmem
      exact hb b (List.mem_of_mem_take hmem)
    · refine ih ?_ ch h2
      intro b hmem
      exact hb b (List.mem_of_mem_drop hmem)

theorem chunks16_count : ∀ l : List Nat, l.length % 16 = 0 →
    16 * (chunks16 l).length = l.length := by
  intro l
  induction l using chunks16_ind with
  | base => intro _; rw [chunks16_nil]; rfl
  | step x hx ih =>
    intro hmod
    have hpos : 0 < x.length := List.length_pos.mpr hx
    have h16 : 16 ≤ x.length := by omega
    rw [chunks16_ne hx]
    have hrec := ih (by simp only [List.length_drop]; omega)
    simp only [List.length_cons, List.length_drop] at *
    omega

/-! XOR of byte lists. -/

theorem zipWith_xor_cancel :
    ∀ (a b : List Nat), a.length ≤ b.length →
      List.zipWith (· ^^^ ·) (List.zipWith (· ^^^ ·) a b) b = a := by
  intro a
  induction a with
  | nil => intro b _; simp
  | cons x a ih =>
    intro b hb
    cases b with
    | nil => simp at hb
    | cons y b =>
      simp only [List.zipWith_cons_cons, Nat.xor_cancel_right, List.cons.injEq, true_and]
      exact ih b (by simpa using hb)

theorem bytesOk_zipWith_xor :
    ∀ {a b : List Nat}, bytesOk a → bytesOk b → bytesOk (List.zipWith (· ^^^ ·) a b) := by
  intro a
  induction a with
  | nil => intro b _ _; simp [bytesOk]
  | cons x a ih =>
    intro b ha hb
    cases b with
    | nil => simp [bytesOk]
    | cons y b =>
      simp only [List.zipWith_cons_cons]
      intro z hz
      rcases List.mem_cons.mp hz with rfl | h2
      · exact xor_lt_256 (ha x (by simp)) (hb y (by simp))
      · exact ih (fun u hu => ha u (by simp [hu])) (fun u hu => hb u (by simp [hu])) z h2

theorem zipWith_xor_length (a b : List Nat) :
    (List.zipWith (· ^^^ ·) a b).length = min a.length b.length := by
  simp

/-! ECB mode round trip and lengths. -/

theorem ecb_chunks_roundtrip {w : List (List Nat)} (hw : schedOk w) {nr : Nat}
    (hnr : 1 ≤ nr) :
    ∀ chs : List (List Nat), (∀ ch ∈ chs, ch.length = 16 ∧ bytesOk ch) →
      ecbDecChunks w nr (chunks16 (ecbEncChunks w nr chs)) = some chs.flatten := by
  intro chs
  induction chs with
  | nil =>
    intro _
    rw [show ecbEncChunks w nr [] = [] from rfl, chunks16_nil]
    rfl
  | cons ch rest ih =>
    intro hok
    obtain ⟨hlen, hbytes⟩ := hok ch (by simp)
    show ecbDecChunks w nr (chunks16 (encrypt_block w nr ch ++ ecbEncChunks w nr rest)) = _
    rw [chunks16_append16 _ (encrypt_block_length w nr ch)]
    show (if (encrypt_block w nr ch).length = 16 then _ else none) = _
    rw [if_pos (encrypt_block_length w nr ch)]
    rw [ih (fun c hc => hok c (by simp [hc]))]
    show some (decrypt_block w nr (encrypt_block w nr ch) ++ rest.flatten) =
      some ((ch :: rest).flatten)
    rw [decrypt_encrypt_block hw hnr hlen hbytes]
    rfl

theorem ecbEncChunks_length (w : List (List Nat)) (nr : Nat) :
    ∀ chs : List (List Nat), (ecbEncChunks w nr chs).length = 16 * chs.length := by
  intro chs
  induction chs with
  | nil => rfl
  | cons ch rest ih =>
    show (encrypt_block w nr ch ++ ecbEncChunks w nr rest).length = _
    simp only [List.length_append, encrypt_block_length, ih, List.length_cons]
    ring

theorem encrypt_ecb_length (key : AesKey) (p : List Nat) :
    (encrypt_ecb key p).length = (pkcs7.pad p 16).length := by
  unfold encrypt_ecb
  rw [ecbEncChunks_length, chunks16_count _ (pad16_mult p)]

/-! CBC mode round trip and lengths. -/

theorem cbc_chunks_roundtrip {w : List (List Nat)} (hw : schedOk w) {nr : Nat}
    (hnr : 1 ≤ nr) :
    ∀ (chs : List (List Nat)) (r : List Nat),
      (∀ ch ∈ chs, ch.length = 16 ∧ bytesOk ch) → r.length = 16 → bytesOk r →
      cbcDecChunks w nr r (chunks16 (cbcEncChunks w nr r chs)) = some chs.flatten := by
  intro chs
  induction chs with
  | nil =>
    intro r _ _ _
    rw [show cbcEncChunks w nr r [] = [] from rfl, chunks16_nil]
    rfl
  | cons ch rest ih =>
    intro r hok hr hrb
    obtain ⟨hlen, hbytes⟩ := hok ch (by simp)
    have hinlen : (List.zipWith (· ^^^ ·) ch r).length = 16 := by
      rw [zipWith_xor_length, hlen, hr]
      simp
    have hinb : bytesOk (List.zipWith (· ^^^ ·) ch r) := bytesOk_zipWith_xor hbytes hrb
    show cbcDecChunks w nr r (chunks16
      (encrypt_block w nr (List.zipWith (· ^^^ ·) ch r) ++
        cbcEncChunks w nr (encrypt_block w nr (List.zipWith (· ^^^ ·) ch r)) rest)) = _
    rw [chunks16_append16 _ (encrypt_block_length w nr _)]
    show (if (encrypt_block w nr (List.zipWith (· ^^^ ·) ch r)).length = 16 then _ else none) = _
    rw [if_pos (encrypt_block_length w nr _)]
    rw [ih _ (fun c hc => hok c (by simp [hc])) (encrypt_block_length w nr _)
      (bytesOk_encrypt_block hw nr hinb)]
    show some (List.zipWith (· ^^^ ·)
      (decrypt_block w nr (encrypt_block w nr (List.zipWith (· ^^^ ·) ch r))) r ++
      rest.flatten) = some ((ch :: rest).flatten)
    rw [decrypt_encrypt_block hw hnr hinlen hinb, zipWith_xor_cancel ch r (by omega)]
    rfl

theorem cbcEncChunks_length (w : List (List Nat)) (nr : Nat) :
    ∀ (chs : List (List Nat)) (r : List Nat),
      (cbcEncChunks w nr r chs).length = 16 * chs.length := by
  intro chs
  induction chs with
  | nil => intro r; rfl
  | cons ch rest ih =>
    intro r
    show (encrypt_block w nr _ ++ cbcEncChunks w nr _ rest).length = _
    simp only [List.length_append, encrypt_block_length, ih, List.length_cons]
    ring

theorem encrypt_cbc_length (key : AesKey) (iv p : List Nat) :
    (encrypt_cbc key iv p).length = (pkcs7.pad p 16).length := by
  unfold encrypt_cbc
  rw [cbcEncChunks_length, chunks16_count _ (pad16_mult p)]

/-! CTR mode round trip and lengths. -/

theorem ctr_chunks_roundtrip (w : List (List Nat)) (nr nonce : Nat) :
    ∀ l : List Nat, ∀ ctr : Nat,
      ctrChunks w nr nonce ctr (chunks16 (ctrChunks w nr nonce ctr (chunks16 l))) = l := by
  intro l
  induction l using chunks16_ind with
  | base =>
    intro ctr
    rw [chunks16_nil]
    rw [show ctrChunks w nr nonce ctr [] = [] from rfl, chunks16_nil]
    rfl
  | step x hx ih =>
    intro ctr
    have hpos : 0 < x.length := List.length_pos.mpr hx
    rw [chunks16_ne hx]
    show ctrChunks w nr nonce ctr (chunks16
      (List.zipWith (· ^^^ ·) (x.take 16)
        (encrypt_block w nr (be_bytes8 nonce ++ be_bytes8 ctr)) ++
       ctrChunks w nr nonce (ctr + 1) (chunks16 (x.drop 16)))) = x
    have hkslen : (encrypt_block w nr (be_bytes8 nonce ++ be_bytes8 ctr)).length = 16 :=
      encrypt_block_length w nr _
    have htake : (x.take 16).length = min 16 x.length := by simp
    by_cases h16 : 16 ≤ x.length
    · have hplen : (List.zipWith (· ^^^ ·) (x.take 16)
          (encrypt_block w nr (be_bytes8 nonce ++ be_bytes8 ctr))).length = 16 := by
        rw [zipWith_xor_length, hkslen, htake]
        omega
      rw [chunks16_append16 _ hplen]
      show List.zipWith (· ^^^ ·) (List.zipWith (· ^^^ ·) (x.take 16) _) _ ++
        ctrChunks w nr nonce (ctr + 1) (chunks16 (ctrChunks w nr nonce (ctr + 1)
          (chunks16 (x.drop 16)))) = x
      rw [zipWith_xor_cancel _ _ (by rw [hkslen]; omega), ih (ctr + 1)]
      exact List.take_append_drop 16 x
    · -- the single short final chunk
      have hdrop : x.drop 16 = [] := List.drop_eq_nil_of_le (by omega)
      have htakex : x.take 16 = x := List.take_of_length_le (by omega)
      rw [hdrop, chunks16_nil]
      rw [show ctrChunks w nr nonce (ctr + 1) [] = [] from rfl, List.append_nil]
      have hplen : (List.zipWith (· ^^^ ·) (x.take 16)
          (encrypt_block w nr (be_bytes8 nonce ++ be_bytes8 ctr))).length = x.length := by
        rw [zipWith_xor_length, hkslen, htake]
        omega
      have hpne : List.zipWith (· ^^^ ·) (x.take 16)
          (encrypt_block w nr (be_bytes8 nonce ++ be_bytes8 ctr)) ≠ [] := by
        intro hc
        rw [hc] at hplen
        simp at hplen
        omega
      rw [chunks16_ne hpne]
      rw [List.take_of_length_le (by rw [hplen]; omega),
        List.drop_eq_nil_of_le (by rw [hplen]; omega), chunks16_nil]
      show List.zipWith (· ^^^ ·) (List.zipWith (· ^^^ ·) (x.take 16) _) _ ++
        ctrChunks w nr nonce (ctr + 1) [] = x
      rw [zipWith_xor_cancel _ _ (by rw [hkslen, htakex]; omega), htakex]
      rw [show ctrChunks w nr nonce (ctr + 1) [] = [] from rfl, List.append_nil]

theorem ctrChunks_length (w : List (List Nat)) (nr nonce : Nat) :
    ∀ l : List Nat, ∀ ctr : Nat,
      (ctrChunks w nr nonce ctr (chunks16 l)).length = l.length := by
  intro l
  induction l using chunks16_ind with
  | base =>
    intro ctr
    rw [chunks16_nil]
    rfl
  | step x hx ih =>
    intro ctr
    rw [chunks16_ne hx]
    show (List.zipWith (· ^^^ ·) (x.take 16) _ ++
      ctrChunks w nr nonce (ctr + 1) (chunks16 (x.drop 16))).length = x.length
    rw [List.length_append, zipWith_xor_length, encrypt_block_length, ih (ctr + 1)]
    simp only [List.length_take, List.length_drop]
    omega

/-! Decryption of ill-sized ciphertexts panics. -/

theorem ecbDecChunks_none (w : List (List Nat)) (nr : Nat) :
    ∀ l : List Nat, l.length % 16 ≠ 0 → ecbDecChunks w nr (chunks16 l) = none := by
  intro l
  induction l using chunks16_ind with
  | base => intro h; simp at h
  | step x hx ih =>
    intro hmod
    rw [chunks16_ne hx]
    by_cases h16 : 16 ≤ x.length
    · show (if (x.take 16).length = 16 then _ else none) = none
      rw [if_pos (by simp; omega)]
      rw [ih (by simp only [List.length_drop]; omega)]
      rfl
    · show (if (x.take 16).length = 16 then _ else none) = none
      rw [if_neg (by simp; omega)]

theorem cbcDecChunks_none (w : List (List Nat)) (nr : Nat) :
    ∀ l : List Nat, ∀ r : List Nat, l.length % 16 ≠ 0 →
      cbcDecChunks w nr r (chunks16 l) = none := by
  intro l
  induction l using chunks16_ind with
  | base => intro r h; simp at h
  | step x hx ih =>
    intro r hmod
    rw [chunks16_ne hx]
    by_cases h16 : 16 ≤ x.length
    · show (if (x.take 16).length = 16 then _ else none) = none
      rw [if_pos (by simp; omega)]
      rw [ih _ (by simp only [List.length_drop]; omega)]
      rfl
    · show (if (x.take 16).length = 16 then _ else none) = none
      rw [if_neg (by simp; omega)]

/-! The CTR counter-block sequence. -/

theorem be_bytes8_length (v : Nat) : (be_bytes8 v).length = 8 := rfl

theorem be_bytes8_inj {a b : Nat} (ha : a < 2 ^ 64) (hb : b < 2 ^ 64)
    (h : be_bytes8 a = be_bytes8 b) : a = b := by
  simp only [be_bytes8, List.cons.injEq, and_true] at h
  norm_num at h ha hb
  omega

/-- The keystream loop encrypts exactly the blocks
`nonce ++ (ctr + j)` for `j` ranging over the chunk indices. -/
theorem ctrChunks_eq (w : List (List Nat)) (nr nonce : Nat) :
    ∀ (chs : List (List Nat)) (ctr : Nat),
      ctrChunks w nr nonce ctr chs =
        (List.zipWith (fun ch j => List.zipWith (· ^^^ ·) ch
            (encrypt_block w nr (be_bytes8 nonce ++ be_bytes8 (ctr + j))))
          chs (List.range chs.length)).flatten := by
  intro chs
  induction chs with
  | nil => intro ctr; rfl
  | cons ch rest ih =>
    intro ctr
    rw [show ctrChunks w nr nonce ctr (ch :: rest) =
      List.zipWith (· ^^^ ·) ch (encrypt_block w nr (be_bytes8 nonce ++ be_bytes8 ctr)) ++
        ctrChunks w nr nonce (ctr + 1) rest from rfl]
    rw [ih (ctr + 1)]
    rw [show (ch :: rest).length = rest.length + 1 from rfl, List.range_succ_eq_map]
    rw [List.zipWith_cons_cons, List.flatten_cons, Nat.add_zero]
    congr 2
    rw [List.zipWith_map_right]
    congr 1
    funext c j
    rw [show ctr + Nat.succ j = ctr + 1 + j by omega]

/-! The duplicate-chunk detector. -/

theorem detectLoop_iff :
    ∀ (l seen : List (List Nat)),
      detectLoop seen l = true ↔ (¬ l.Nodup ∨ ∃ c ∈ l, c ∈ seen) := by
  intro l
  induction l with
  | nil =>
    intro seen
    simp [detectLoop]
  | cons ch rest ih =>
    intro seen
    by_cases hmem : ch ∈ seen
    · simp only [detectLoop, if_pos hmem]
      constructor
      · intro _
        exact Or.inr ⟨ch, by simp, hmem⟩
      · intro _
        trivial
    · simp only [detectLoop, if_neg hmem]
      rw [ih (ch :: seen)]
      simp only [List.nodup_cons, List.mem_cons]
      constructor
      · rintro (hnd | ⟨c, hc, rfl | hc2⟩)
        · exact Or.inl (fun hcontra => hnd hcontra.2)
        · exact Or.inl (fun hcontra => hcontra.1 hc)
        · exact Or.inr ⟨c, by simp [hc], hc2⟩
      · rintro (hnd | ⟨c, hc, hc2⟩)
        · by_cases hin : ch ∈ rest
          · exact Or.inr ⟨ch, hin, Or.inl rfl⟩
          · exact Or.inl (fun hcontra => hnd ⟨hin, hcontra⟩)
        · rcases hc with rfl | hc3
          · exact absurd hc2 hmem
          · exact Or.inr ⟨c, hc3, Or.inr hc2⟩

theorem detect_ecb_iff (input : List Nat) :
    detect_ecb input = true ↔
      input.length % 16 = 0 ∧ ¬ (chunks16 input).Nodup := by
  unfold detect_ecb
  by_cases hmod : input.length % 16 = 0
  · rw [if_neg (by omega)]
    rw [detectLoop_iff]
    simp [hmod]
  · rw [if_pos hmod]
    simp [hmod]

theorem not_nodup_iff_dup (l : List (List Nat)) :
    ¬ l.Nodup ↔ ∃ i j, i < j ∧ j < l.length ∧ l.getD i [] = l.getD j [] := by
  have base : l.Nodup ↔ ∀ i j : Fin l.length, i < j → l.get i ≠ l.get j :=
    List.pairwise_iff_get
  rw [base]
  push_neg
  constructor
  · rintro ⟨i, j, hij, heq⟩
    refine ⟨i.val, j.val, hij, j.isLt, ?_⟩
    rw [List.getD_eq_getElem _ _ (by omega), List.getD_eq_getElem _ _ (by omega)]
    simpa [List.get_eq_getElem] using heq
  · rintro ⟨i, j, hij, hj, heq⟩
    refine ⟨⟨i, by omega⟩, ⟨j, hj⟩, by simpa using hij, ?_⟩
    rw [List.getD_eq_getElem _ _ (by omega), List.getD_eq_getElem _ _ (by omega)] at heq
    simpa [List.get_eq_getElem] using heq

/-- The chunks of an ECB ciphertext are the block-wise encryptions of the
chunks of the padded plaintext. -/
theorem chunks16_ecbEnc (w : List (List Nat)) (nr : Nat) :
    ∀ chs : List (List Nat),
      chunks16 (ecbEncChunks w nr chs) = chs.map (encrypt_block w nr) := by
  intro chs
  induction chs with
  | nil => exact chunks16_nil
  | cons ch rest ih =>
    show chunks16 (encrypt_block w nr ch ++ ecbEncChunks w nr rest) = _
    rw [chunks16_append16 _ (encrypt_block_length w nr ch), ih]
    rfl

/-! The claims. -/

/-- C1: for every valid AES key (16, 24 or 32 bytes) and every 16-byte
block B, decrypting the encryption of B under the key returns B. -/
theorem C1_block_roundtrip (key : AesKey) (input : List Nat)
    (hlen : input.length = 16) (hb : bytesOk input) :
    decrypt key (encrypt key input) = input := by
  unfold encrypt decrypt
  exact decrypt_encrypt_block (schedOk_compute (keyBytes_bytesOk key)) (by omega) hlen hb

/-- C1 witness: the round trip at the known-answer key and the block
`"YELLOW SUBMARINE"`. -/
theorem C1_witness :
    decrypt kat_key (encrypt kat_key yellow_submarine) = yellow_submarine :=
  C1_block_roundtrip kat_key yellow_submarine (by decide) (by decide)

/-- C2: for every valid key, 16-byte IV and byte buffer P, each of the
three modes round-trips: ECB and CBC decryption of the corresponding
encryption return `some P` (the Rust functions return the vector P), and
CTR decryption of CTR encryption returns P. -/
theorem C2_mode_roundtrips (key : AesKey) (iv p : List Nat) (hiv : iv.length = 16)
    (hivb : bytesOk iv) (hp : bytesOk p) :
    decrypt_ecb key (encrypt_ecb key p) = some p ∧
    decrypt_cbc key iv (encrypt_cbc key iv p) = some p ∧
    decrypt_ctr key iv (encrypt_ctr key iv p) = p := by
  have hw : schedOk (compute_key_schedule (keyBytes key)) :=
    schedOk_compute (keyBytes_bytesOk key)
  have hnr : 1 ≤ (keysize key >>> 2) + 6 := by omega
  refine ⟨?_, ?_, ?_⟩
  · unfold decrypt_ecb encrypt_ecb
    rw [ecb_chunks_roundtrip hw hnr _ (fun ch hch =>
      ⟨chunks16_full _ (pad16_mult p) ch hch,
       chunks16_bytesOk _ (bytesOk_pad16 hp) ch hch⟩)]
    show trunc_unpad ((chunks16 (pkcs7.pad p 16)).flatten) = some p
    rw [chunks16_flatten, trunc_unpad_pad]
  · unfold decrypt_cbc encrypt_cbc
    rw [cbc_chunks_roundtrip hw hnr _ iv (fun ch hch =>
      ⟨chunks16_full _ (pad16_mult p) ch hch,
       chunks16_bytesOk _ (bytesOk_pad16 hp) ch hch⟩) hiv hivb]
    show trunc_unpad ((chunks16 (pkcs7.pad p 16)).flatten) = some p
    rw [chunks16_flatten, trunc_unpad_pad]
  · unfold decrypt_ctr encrypt_ctr
    exact ctr_chunks_roundtrip _ _ _ p _

/-- C2 witness: the three round trips at a concrete key, IV and buffer. -/
theorem C2_witness :
    decrypt_ecb kat_key (encrypt_ecb kat_key [1, 2, 3]) = some [1, 2, 3] ∧
    decrypt_cbc kat_key yellow_submarine
      (encrypt_cbc kat_key yellow_submarine [1, 2, 3]) = some [1, 2, 3] ∧
    decrypt_ctr kat_key yellow_submarine
      (encrypt_ctr kat_key yellow_submarine [1, 2, 3]) = [1, 2, 3] :=
  C2_mode_roundtrips kat_key yellow_submarine [1, 2, 3] (by decide) (by decide) (by decide)

/-- C3: encrypting the ASCII block `"YELLOW SUBMARINE"` under the key
`000102030405060708090a0b0c0d0e0f` yields exactly the ciphertext
`761ab98c7086c509261f322cb3ffa7d9`. -/
theorem C3_known_answer :
    encrypt kat_key yellow_submarine =
      [0x76, 0x1a, 0xb9, 0x8c, 0x70, 0x86, 0xc5, 0x09,
       0x26, 0x1f, 0x32, 0x2c, 0xb3, 0xff, 0xa7, 0xd9] := by decide

/-- C4 (code_bug evaluation): on a 24-byte key the key schedule computed
by the code diverges from the one with the standard AES Rcon sequence
(`compute_key_schedule_std`, modelled from the spec).  Both agree on all
words up to index 35 and differ first at word 36, where the code resets
its running constant to 0x1b because `36 % 36 == 0`, while the standard
constant there is 0x20 (the running value 0x10 doubled, no overflow): the
leading bytes 0xf9 and 0xc2 differ by 0x1b XOR 0x20 = 0x3b.  For 16- and
32-byte keys the two schedules coincide (for 16-byte keys the reset at
`i = 36` happens exactly when the doubling overflows past 0x80; for
32-byte keys no index in range is a multiple of 36). -/
theorem C4_rcon_divergence :
    (compute_key_schedule (List.replicate 24 0)).take 36 =
      (compute_key_schedule_std (List.replicate 24 0)).take 36 ∧
    (compute_key_schedule (List.replicate 24 0)).getD 36 [] = [0xf9, 0x68, 0x96, 0xf7] ∧
    (compute_key_schedule_std (List.replicate 24 0)).getD 36 [] = [0xc2, 0x68, 0x96, 0xf7] ∧
    compute_key_schedule (List.replicate 24 0) ≠
      compute_key_schedule_std (List.replicate 24 0) ∧
    compute_key_schedule (List.replicate 16 0) =
      compute_key_schedule_std (List.replicate 16 0) ∧
    compute_key_schedule (List.replicate 32 0) =
      compute_key_schedule_std (List.replicate 32 0) := by decide

/-- C5 (counterexample): the unpadding step does not fail on a padding
byte of 0 or on one exceeding the block size — it returns a value.  On
`[1, 0]` (last byte 0) the buffer is returned unchanged, and a padding
byte of 17 > 16 is honoured as a truncation count. -/
theorem C5_counterexample :
    trunc_unpad [1, 0] = some [1, 0] ∧
    trunc_unpad (List.replicate 31 0 ++ [17]) = some (List.replicate 15 0) := by decide

/-- C5 (amended): the unpadding step of `decrypt_ecb`/`decrypt_cbc` reads
the last byte as the padding length n and truncates the trailing n bytes
with no validation at all: any n not exceeding the buffer length is
honoured (n = 0 returns the buffer unchanged, n may exceed the block
size), there is no `InvalidPadding` error anywhere, and n greater than
the buffer length makes the subtraction `res_len - padding_len` underflow
(a panic in debug builds, modelled by `none`). -/
theorem C5_unpad_behaviour (b : List Nat) (hne : b ≠ []) :
    (b.getD (b.length - 1) 0 ≤ b.length →
      trunc_unpad b = some (b.take (b.length - b.getD (b.length - 1) 0))) ∧
    (b.length < b.getD (b.length - 1) 0 → trunc_unpad b = none) := by
  have hlen : b.length ≠ 0 := fun h => hne (List.length_eq_zero.mp h)
  constructor
  · intro hle
    unfold trunc_unpad
    rw [if_neg hlen, if_neg (by omega)]
  · intro hgt
    unfold trunc_unpad
    rw [if_neg hlen, if_pos hgt]

/-- C5 witness: both branches of the amended statement at concrete
buffers. -/
theorem C5_witness : trunc_unpad [2, 2] = some [] ∧ trunc_unpad [9] = none := by
  constructor
  · have h := (C5_unpad_behaviour [2, 2] (by decide)).1 (by decide)
    simpa using h
  · exact (C5_unpad_behaviour [9] (by decide)).2 (by decide)

/-- C6 (counterexample): ECB/CBC decryption of a ciphertext whose length
is not a multiple of 16 does not return a recoverable error value — the
block copy loop indexes past the short chunk and panics (`none`). -/
theorem C6_counterexample :
    decrypt_ecb kat_key [0] = none ∧
    decrypt_cbc kat_key (List.replicate 16 0) [0] = none := by decide

/-- C6 (amended): invalid key lengths are impossible by construction
(every `AesKey` holds exactly 16, 24 or 32 key bytes; no runtime
`InvalidKeyLength` error exists); ECB/CBC decryption of a ciphertext
whose length is not a multiple of 16 panics (`none`) instead of returning
`InvalidBlockLength`; trailing-padding bytes are not validated at all
(see C5); CTR encryption and decryption are total and return an output of
the input length for every input. -/
theorem C6_failure_semantics :
    (∀ key : AesKey, (keyBytes key).length = 16 ∨ (keyBytes key).length = 24 ∨
      (keyBytes key).length = 32) ∧
    (∀ (key : AesKey) (c : List Nat), c.length % 16 ≠ 0 → decrypt_ecb key c = none) ∧
    (∀ (key : AesKey) (iv c : List Nat), c.length % 16 ≠ 0 →
      decrypt_cbc key iv c = none) ∧
    (∀ (key : AesKey) (iv p : List Nat), (encrypt_ctr key iv p).length = p.length ∧
      (decrypt_ctr key iv p).length = p.length) := by
  refine ⟨keyBytes_length, ?_, ?_, ?_⟩
  · intro key c hc
    unfold decrypt_ecb
    rw [ecbDecChunks_none _ _ _ hc]
    rfl
  · intro key iv c hc
    unfold decrypt_cbc
    rw [cbcDecChunks_none _ _ _ _ hc]
    rfl
  · intro key iv p
    exact ⟨ctrChunks_length _ _ _ p _, ctrChunks_length _ _ _ p _⟩

/-- C6 witness: the panic branches at concrete ill-sized ciphertexts. -/
theorem C6_witness :
    decrypt_ecb kat_key [1, 2, 3] = none ∧
    decrypt_cbc kat_key yellow_submarine [5] = none := by
  constructor
  · exact C6_failure_semantics.2.1 kat_key [1, 2, 3] (by decide)
  · exact C6_failure_semantics.2.2.1 kat_key yellow_submarine [5] (by decide)

/-- C7: for every buffer and block size S with 1 ≤ S ≤ 255, `pad` appends
exactly n bytes of value n where n = S - (len mod S); a block-aligned
buffer gets a full extra block (n = S) and the empty buffer becomes S
bytes of value S. -/
theorem C7_pad (b : List Nat) (S : Nat) (h1 : 1 ≤ S) (h2 : S ≤ 255) :
    pkcs7.pad b S = b ++ List.replicate (S - b.length % S) (S - b.length % S) ∧
    1 ≤ S - b.length % S ∧ S - b.length % S ≤ S ∧
    (b.length % S = 0 → S - b.length % S = S) ∧
    pkcs7.pad [] S = List.replicate S S := by
  have hmod : b.length % S < S := Nat.mod_lt _ (by omega)
  refine ⟨pad_spec b S h1 h2, by omega, by omega, by omega, ?_⟩
  have h := pad_spec [] S h1 h2
  simpa using h

/-- C7 witness: the empty buffer at block size 16. -/
theorem C7_witness : pkcs7.pad [] 16 = List.replicate 16 16 :=
  (C7_pad [] 16 (by norm_num) (by norm_num)).2.2.2.2

/-- C8: CTR output length equals the input length exactly, while ECB and
CBC output lengths are multiples of 16 exceeding the input length by at
least 1 and at most 16 bytes. -/
theorem C8_output_lengths (key : AesKey) (iv p : List Nat) :
    (encrypt_ctr key iv p).length = p.length ∧
    (encrypt_ecb key p).length % 16 = 0 ∧
    p.length + 1 ≤ (encrypt_ecb key p).length ∧
    (encrypt_ecb key p).length ≤ p.length + 16 ∧
    (encrypt_cbc key iv p).length % 16 = 0 ∧
    p.length + 1 ≤ (encrypt_cbc key iv p).length ∧
    (encrypt_cbc key iv p).length ≤ p.length + 16 := by
  have hmod : p.length % 16 < 16 := Nat.mod_lt _ (by norm_num)
  have hecb := encrypt_ecb_length key p
  have hcbc := encrypt_cbc_length key iv p
  have hpad := pad_length p 16
  refine ⟨ctrChunks_length _ _ _ p _, ?_, ?_, ?_, ?_, ?_, ?_⟩ <;> omega

/-- C9: `detect_ecb` returns true exactly when the input length is a
multiple of 16 and two equal 16-byte-aligned chunks occur at different
offsets; consequently, whenever the padded plaintext has two equal
aligned blocks, the ECB encryption is detected (no false negatives). -/
theorem C9_detector (input : List Nat) :
    (detect_ecb input = true ↔ input.length % 16 = 0 ∧
      ∃ i j, i < j ∧ j < (chunks16 input).length ∧
        (chunks16 input).getD i [] = (chunks16 input).getD j []) ∧
    (∀ (key : AesKey) (p : List Nat),
      (∃ i j, i < j ∧ j < (chunks16 (pkcs7.pad p 16)).length ∧
        (chunks16 (pkcs7.pad p 16)).getD i [] = (chunks16 (pkcs7.pad p 16)).getD j []) →
      detect_ecb (encrypt_ecb key p) = true) := by
  constructor
  · rw [detect_ecb_iff, not_nodup_iff_dup]
  · rintro key p ⟨i, j, hij, hj, heq⟩
    rw [detect_ecb_iff, not_nodup_iff_dup]
    refine ⟨by rw [encrypt_ecb_length]; exact pad16_mult p, ?_⟩
    unfold encrypt_ecb
    rw [chunks16_ecbEnc]
    have hi : i < (chunks16 (pkcs7.pad p 16)).length := by omega
    refine ⟨i, j, hij, by rw [List.length_map]; exact hj, ?_⟩
    rw [List.getD_eq_getElem _ _ (by simpa using hi),
        List.getD_eq_getElem _ _ (by simpa using hj)]
    rw [List.getElem_map, List.getElem_map]
    congr 1
    rw [List.getD_eq_getElem _ _ hi, List.getD_eq_getElem _ _ hj] at heq
    exact heq

/-- C9 witness: a plaintext whose padded form repeats a 16-byte block is
detected after ECB encryption. -/
theorem C9_witness :
    detect_ecb (encrypt_ecb kat_key (List.replicate 32 0)) = true :=
  (C9_detector (encrypt_ecb kat_key (List.replicate 32 0))).2 kat_key
    (List.replicate 32 0) ⟨0, 1, by norm_num, by decide, by decide⟩

/-- C10: the CTR keystream encrypts exactly the blocks
`nonce ++ bigEndian64(ctr0 + j)`; for an IV whose low half is all 0xff the
very first increment reaches 2^64 (overflowing the u64 — a panic in debug
builds), and the wrapped encoding restarts the counter at zero without
carrying into the nonce (the nonce half of every block input is constant);
whenever the initial counter plus the chunk count stays within 2^64, all
counter blocks are pairwise distinct. -/
theorem C10_ctr_counter (key : AesKey) (iv p : List Nat) :
    (encrypt_ctr key iv p =
      (List.zipWith (fun ch j => List.zipWith (· ^^^ ·) ch
          (encrypt_block (compute_key_schedule (keyBytes key)) ((keysize key >>> 2) + 6)
            (ctr_block_input iv j)))
        (chunks16 p) (List.range (chunks16 p).length)).flatten) ∧
    (iv.drop 8 = List.replicate 8 255 →
      ctr_init iv + 1 = 2 ^ 64 ∧
      be_bytes8 (ctr_init iv + 1) = List.replicate 8 0 ∧
      (16 < p.length → 1 < (chunks16 p).length) ∧
      ∀ j : Nat, (ctr_block_input iv j).take 8 = be_bytes8 (ctr_nonce iv)) ∧
    (∀ n j k : Nat, ctr_init iv + n ≤ 2 ^ 64 → j < n → k < n → j ≠ k →
      ctr_block_input iv j ≠ ctr_block_input iv k) := by
  refine ⟨?_, ?_, ?_⟩
  · unfold encrypt_ctr
    exact ctrChunks_eq _ _ _ (chunks16 p) (be_read8 (iv.drop 8))
  · intro hlow
    have hci : ctr_init iv = 2 ^ 64 - 1 := by
      unfold ctr_init
      rw [hlow]
      decide
    refine ⟨by rw [hci]; norm_num, by rw [hci, show 2 ^ 64 - 1 + 1 = 2 ^ 64 by norm_num]; decide,
      ?_, ?_⟩
    · intro hp
      have hne : p ≠ [] := by
        intro h
        rw [h] at hp
        simp at hp
      have hdne : p.drop 16 ≠ [] := by
        intro h
        have := congrArg List.length h
        simp at this
        omega
      rw [chunks16_ne hne, chunks16_ne hdne]
      simp
    · intro j
      unfold ctr_block_input
      rw [show (8 : Nat) = (be_bytes8 (ctr_nonce iv)).length from rfl, List.take_left]
  · intro n j k hle hj hk hne heq
    unfold ctr_block_input at heq
    have h2 := (List.append_inj heq rfl).2
    have hj64 : ctr_init iv + j < 2 ^ 64 := by omega
    have hk64 : ctr_init iv + k < 2 ^ 64 := by omega
    have := be_bytes8_inj hj64 hk64 h2
    omega

/-- C10 witness: the concrete overflow IV, and distinct counter blocks
for the zero IV. -/
theorem C10_witness :
    ctr_init (List.replicate 8 0 ++ List.replicate 8 255) + 1 = 2 ^ 64 ∧
    ctr_block_input (List.replicate 16 0) 0 ≠ ctr_block_input (List.replicate 16 0) 1 := by
  constructor
  · exact ((C10_ctr_counter kat_key (List.replicate 8 0 ++ List.replicate 8 255)
      []).2.1 (by decide)).1
  · exact (C10_ctr_counter kat_key (List.replicate 16 0) []).2.2 2 0 1
      (by decide) (by decide) (by decide) (by decide)

end Cryptopals
